import Mathlib

/-!
Shallow embedding of `src/glowroot_trace_extractor.py` (the Glowroot trace
JSON extractor) together with proofs of the specification claims.

Documents and spans are modelled as `List Char` (Python `str`).  JSON values
are modelled by the inductive `JsonVal`; Python `json.loads` is modelled by
the recursive-descent parser `jsonLoads`, and `json.dump` by `serVal`
(compact separators `(",", ":")` when the indent argument is `none`,
`indent=n` pretty printing when it is `some n`).

Modelling restrictions, stated once here: JSON numbers are modelled as
integers (the traces' floats, and `json.loads`' nonstandard `NaN/Infinity`
acceptance, are outside the model); `\uXXXX` escapes denoting surrogate
halves are rejected by the model parser, since Lean `Char` holds only
Unicode scalar values.  Neither restriction is load-bearing for any claim:
claims about decode success/failure take the decode result as a hypothesis,
and every concrete witness uses plain integer/string payloads.
-/

namespace GTE

abbrev Str := List Char

/-- Left brace character, written via its code point. -/
def lbrace : Char := Char.ofNat 123

/-- Right brace character, written via its code point. -/
def rbrace : Char := Char.ofNat 125

/-! ## JSON data model

Models the Python values produced by `json.loads` in this program:
`dict` (insertion ordered), `list`, `str`, `int`, `bool`, `None`. -/

/-- A decoded JSON value (Python object as produced by `json.loads`). -/
inductive JsonVal where
  | null : JsonVal
  | bool (b : Bool) : JsonVal
  | num (n : Int) : JsonVal
  | str (s : Str) : JsonVal
  | arr (xs : List JsonVal) : JsonVal
  | obj (ps : List (Str × JsonVal)) : JsonVal

/-! ## Serializer: model of `json.dump`

`_save_combined_file` / `_save_separate_files` call `json.dump` either with
`separators=(',', ':')` (compact) or with `indent=2` (pretty),
`ensure_ascii=False` in both cases. -/

/-- Lowercase hex digit, as produced by Python's `'{0:04x}'.format`. -/
def hexDigit (n : Nat) : Char :=
  if n < 10 then Char.ofNat (48 + n) else Char.ofNat (87 + n)

/-- Decimal digits of a natural number, most significant first. -/
def natDigits (n : Nat) : Str :=
  if h : n < 10 then [Char.ofNat (48 + n)]
  else natDigits (n / 10) ++ [Char.ofNat (48 + n % 10)]
decreasing_by exact Nat.div_lt_self (by omega) (by omega)

/-- Python `repr` of an `int`, as emitted by `json.dump`. -/
def intChars (n : Int) : Str :=
  if n < 0 then '-' :: natDigits n.natAbs else natDigits n.natAbs

/-- Escape of one character inside a JSON string literal, as done by
`json.dump(..., ensure_ascii=False)`: only `"`, `\` and control characters
below `0x20` are escaped (the five short escapes, else `\u00XX`). -/
def escChar (c : Char) : Str :=
  if c = '"' then ['\\', '"']
  else if c = '\\' then ['\\', '\\']
  else if c = '\n' then ['\\', 'n']
  else if c = '\t' then ['\\', 't']
  else if c = '\r' then ['\\', 'r']
  else if c = Char.ofNat 8 then ['\\', 'b']
  else if c = Char.ofNat 12 then ['\\', 'f']
  else if c.toNat < 32 then
    ['\\', 'u', '0', '0', hexDigit (c.toNat / 16), hexDigit (c.toNat % 16)]
  else [c]

/-- Serialized JSON string literal (opening quote, escaped body, closing quote). -/
def serStrL (s : Str) : Str := '"' :: s.flatMap escChar ++ ['"']

/-- Indentation: `n` spaces. -/
def sp (n : Nat) : Str := List.replicate n ' '

/-- Whitespace emitted before each container item: nothing in compact mode,
newline plus indentation at the child level in indented mode. -/
def lead (ind : Option Nat) (lvl : Nat) : Str :=
  match ind with
  | none => []
  | some k => '\n' :: sp (lvl + k)

/-- Whitespace emitted before a container's closing bracket. -/
def closeLead (ind : Option Nat) (lvl : Nat) : Str :=
  match ind with
  | none => []
  | some _ => '\n' :: sp lvl

/-- Indentation level of a container's children. -/
def nextLvl (ind : Option Nat) (lvl : Nat) : Nat :=
  match ind with
  | none => lvl
  | some k => lvl + k

/-- Separator between a key and its value: `":"` compact, `": "` indented
(`json.dump` defaults when `indent` is given). -/
def kvSep (ind : Option Nat) : Str :=
  match ind with
  | none => [':']
  | some _ => [':', ' ']

mutual

/-- Model of `json.dump data f` on our value type; `ind = none` is the
compact call `separators=(',', ':')`, `ind = some k` is `indent=k`. -/
def serVal (ind : Option Nat) (lvl : Nat) : JsonVal → Str
  | .null => ['n', 'u', 'l', 'l']
  | .num n => intChars n
  | .bool true => ['t', 'r', 'u', 'e']
  | .str s => serStrL s
  | .bool false => ['f', 'a', 'l', 's', 'e']
  | .arr [] => ['[', ']']
  | .arr (x :: xs) =>
    '[' :: lead ind lvl ++ serVal ind (nextLvl ind lvl) x
      ++ serArrTail ind lvl xs ++ closeLead ind lvl ++ [']']
  | .obj [] => [lbrace, rbrace]
  | .obj (p :: ps) =>
    lbrace :: lead ind lvl ++ serKV ind lvl p
      ++ serObjTail ind lvl ps ++ closeLead ind lvl ++ [rbrace]

/-- One `"key": value` member. -/
def serKV (ind : Option Nat) (lvl : Nat) (p : Str × JsonVal) : Str :=
  serStrL p.1 ++ kvSep ind ++ serVal ind (nextLvl ind lvl) p.2

/-- Comma-separated items after the first array element. -/
def serArrTail (ind : Option Nat) (lvl : Nat) : List JsonVal → Str
  | [] => []
  | x :: xs =>
    ',' :: lead ind lvl ++ serVal ind (nextLvl ind lvl) x ++ serArrTail ind lvl xs

/-- Comma-separated members after the first object member. -/
def serObjTail (ind : Option Nat) (lvl : Nat) : List (Str × JsonVal) → Str
  | [] => []
  | p :: ps => ',' :: lead ind lvl ++ serKV ind lvl p ++ serObjTail ind lvl ps

end

/-! ## Parser: model of `json.loads`

A recursive-descent parser over `List Char` following the `json` module's
grammar: JSON whitespace `" \t\n\r"` around tokens, strict strings
(unescaped control characters rejected), integers with no leading zeros,
objects built with `dict` insertion semantics (duplicate key: value
replaced in place). -/

/-- JSON whitespace, the `json` module's `_w = [ \t\n\r]*`. -/
def jsonWs (c : Char) : Bool := c = ' ' || c = '\t' || c = '\n' || c = '\r'

/-- Skip JSON whitespace. -/
def skipWs : Str → Str
  | [] => []
  | c :: r => if jsonWs c then skipWs r else c :: r

/-- Value of a hex digit. -/
def hexVal (c : Char) : Option Nat :=
  if '0' ≤ c ∧ c ≤ '9' then some (c.toNat - 48)
  else if 'a' ≤ c ∧ c ≤ 'f' then some (c.toNat - 87)
  else if 'A' ≤ c ∧ c ≤ 'F' then some (c.toNat - 55)
  else none

/-- Short escapes accepted after a backslash (the `json` module's
`BACKSLASH` table, without `u`). -/
def escOf (c : Char) : Option Char :=
  if c = '"' then some '"'
  else if c = '\\' then some '\\'
  else if c = '/' then some '/'
  else if c = 'b' then some (Char.ofNat 8)
  else if c = 'f' then some (Char.ofNat 12)
  else if c = 'n' then some '\n'
  else if c = 'r' then some '\r'
  else if c = 't' then some '\t'
  else none

/-- Scan a JSON string body after the opening quote (`py_scanstring`):
returns the decoded characters and the input after the closing quote.
Unescaped characters below `0x20` are rejected (`strict=True`); `\uXXXX`
surrogate halves are rejected (model restriction, see the header). -/
def scanStr : Str → Option (Str × Str)
  | [] => none
  | c :: r =>
    if c = '"' then some ([], r)
    else if c = '\\' then
      match r with
      | [] => none
      | e :: r1 =>
        if e = 'u' then
          match r1 with
          | a :: b :: c2 :: d :: r2 =>
            match hexVal a, hexVal b, hexVal c2, hexVal d with
            | some va, some vb, some vc, some vd =>
              let n := ((va * 16 + vb) * 16 + vc) * 16 + vd
              if 0xD800 ≤ n ∧ n < 0xE000 then none
              else (scanStr r2).map (fun p => (Char.ofNat n :: p.1, p.2))
            | _, _, _, _ => none
          | _ => none
        else
          match escOf e with
          | some ch => (scanStr r1).map (fun p => (ch :: p.1, p.2))
          | none => none
    else if c.toNat < 32 then none
    else (scanStr r).map (fun p => (c :: p.1, p.2))

/-- Greedy digit run, accumulating the value left to right. -/
def parseDigitsAcc (acc : Nat) : Str → Nat × Str
  | [] => (acc, [])
  | c :: r =>
    if c.isDigit then parseDigitsAcc (acc * 10 + (c.toNat - 48)) r
    else (acc, c :: r)

/-- Unsigned integer part per the `json` module's `NUMBER_RE`:
`0` alone, or a nonzero digit followed by a digit run. -/
def parseNat0 : Str → Option (Nat × Str)
  | [] => none
  | c :: r =>
    if c = '0' then some (0, r)
    else if c.isDigit then some (parseDigitsAcc (c.toNat - 48) r)
    else none

/-- Optionally signed integer part of a JSON number. -/
def parseSignedInt : Str → Option (Int × Str)
  | [] => none
  | c :: s =>
    if c = '-' then (parseNat0 s).map (fun p => (-(p.1 : Int), p.2))
    else (parseNat0 (c :: s)).map (fun p => ((p.1 : Int), p.2))

/-- JSON number, integers only: a following fraction or exponent marker
makes the model decode fail (float restriction, see the header). -/
def parseNum (s : Str) : Option (Int × Str) :=
  (parseSignedInt s).bind fun p =>
    match p.2 with
    | [] => some (p.1, [])
    | c :: _ => if c = '.' ∨ c = 'e' ∨ c = 'E' then none else some (p.1, p.2)

/-- A string that cannot extend the number token just parsed before it:
empty, or starting with no digit and no fraction/exponent marker. -/
def numDelim : Str → Bool
  | [] => true
  | c :: _ => !(c.isDigit || c = '.' || c = 'e' || c = 'E')

/-- Python `dict` insertion `d[k] = v`: replace in place if the key is
present, else append. -/
def insertKV (ps : List (Str × JsonVal)) (k : Str) (v : JsonVal) :
    List (Str × JsonVal) :=
  match ps with
  | [] => [(k, v)]
  | (k', v') :: rest =>
    if k' = k then (k', v) :: rest else (k', v') :: insertKV rest k v

/-- Key membership in an association list (Python `k in d`). -/
def hasKey (k : Str) : List (Str × JsonVal) → Bool
  | [] => false
  | (k', _) :: rest => k' = k || hasKey k rest

mutual

/-- Every object inside the value has pairwise-distinct keys — the values
representable by Python dicts. -/
def uniqV : JsonVal → Bool
  | .null => true
  | .bool _ => true
  | .num _ => true
  | .str _ => true
  | .arr xs => uniqItems xs
  | .obj ps => uniqPairs ps

/-- `uniqV` on every array element. -/
def uniqItems : List JsonVal → Bool
  | [] => true
  | x :: xs => uniqV x && uniqItems xs

/-- Pairwise-distinct keys and `uniqV` values. -/
def uniqPairs : List (Str × JsonVal) → Bool
  | [] => true
  | (k, v) :: ps => !hasKey k ps && uniqV v && uniqPairs ps

end

/-- Exact literal tail match (for `null` / `true` / `false`). -/
def expectChars (lit : Str) (s : Str) : Option Str :=
  match lit, s with
  | [], s => some s
  | l :: ls, c :: cs => if c = l then expectChars ls cs else none
  | _ :: _, [] => none

mutual

/-- One JSON value (the `json` module's `scan_once` plus surrounding
whitespace skip), with a fuel bound for termination. -/
def parseVal : Nat → Str → Option (JsonVal × Str)
  | 0, _ => none
  | fuel + 1, s =>
    match skipWs s with
    | [] => none
    | c :: r =>
      if c = 'n' then (expectChars ['u', 'l', 'l'] r).map (fun r' => (.null, r'))
      else if c = 't' then (expectChars ['r', 'u', 'e'] r).map (fun r' => (.bool true, r'))
      else if c = 'f' then (expectChars ['a', 'l', 's', 'e'] r).map (fun r' => (.bool false, r'))
      else if c = '"' then (scanStr r).map (fun p => (.str p.1, p.2))
      else if c = '[' then
        match skipWs r with
        | [] => parseArrItems fuel [] r
        | d :: r' => if d = ']' then some (.arr [], r') else parseArrItems fuel [] r
      else if c = lbrace then
        match skipWs r with
        | [] => none
        | d :: r' =>
          if d = rbrace then some (.obj [], r')
          else parseObjItems fuel [] (d :: r')
      else (parseNum (c :: r)).map (fun p => (.num p.1, p.2))

/-- Array elements after `[` (one or more; `[]` is handled by the caller). -/
def parseArrItems : Nat → List JsonVal → Str → Option (JsonVal × Str)
  | 0, _, _ => none
  | fuel + 1, acc, s =>
    match parseVal fuel s with
    | none => none
    | some (v, r) =>
      match skipWs r with
      | [] => none
      | d :: r' =>
        if d = ',' then parseArrItems fuel (acc ++ [v]) r'
        else if d = ']' then some (.arr (acc ++ [v]), r')
        else none

/-- Object members after `{` (one or more; `{}` is handled by the caller). -/
def parseObjItems : Nat → List (Str × JsonVal) → Str → Option (JsonVal × Str)
  | 0, _, _ => none
  | fuel + 1, acc, s =>
    match skipWs s with
    | [] => none
    | c :: r =>
      if c = '"' then
        match scanStr r with
        | none => none
        | some (k, r1) =>
          match skipWs r1 with
          | [] => none
          | d :: r2 =>
            if d = ':' then
              match parseVal fuel r2 with
              | none => none
              | some (v, r3) =>
                match skipWs r3 with
                | [] => none
                | e :: r4 =>
                  if e = ',' then parseObjItems fuel (insertKV acc k v) r4
                  else if e = rbrace then some (.obj (insertKV acc k v), r4)
                  else none
            else none
      else none

end

/-- Model of `json.loads`: parse one value, then require only whitespace
after it.  The fuel `2 * length + 2` is enough for every input the real
decoder accepts (each two fuel steps consume at least one character). -/
def jsonLoads (s : Str) : Option JsonVal :=
  match parseVal (2 * s.length + 2) s with
  | some (v, r) => if skipWs r = [] then some v else none
  | none => none

/-! ## Marker-span extraction: model of `_extract_json_from_html`

The source matches, per script id, the pattern
`<script\s+type="text/json"\s+id="{script_id}"[^>]*>(.*?)(?=<script|</body>|$)`
with `re.DOTALL | re.IGNORECASE` (so the whole pattern, the id included, is
matched case-insensitively), takes the leftmost match, strips the captured
group, removes everything from a *case-sensitive* `</script>` on (the
`re.sub` call has no `IGNORECASE` flag), and strips again. -/

/-- Python's `\s` / `str.strip` whitespace (the `str` flavour is Unicode;
the code points relevant to HTML input are listed). -/
def pySpace (c : Char) : Bool :=
  c = ' ' || c = '\t' || c = '\n' || c = '\r' || c = Char.ofNat 11 ||
  c = Char.ofNat 12 || c = Char.ofNat 28 || c = Char.ofNat 29 ||
  c = Char.ofNat 30 || c = Char.ofNat 31 || c = Char.ofNat 0x85 ||
  c = Char.ofNat 0xA0 || c = Char.ofNat 0x1680 ||
  (0x2000 ≤ c.toNat ∧ c.toNat ≤ 0x200A) || c = Char.ofNat 0x2028 ||
  c = Char.ofNat 0x2029 || c = Char.ofNat 0x202F || c = Char.ofNat 0x205F ||
  c = Char.ofNat 0x3000

/-- Python `str.strip()`: drop leading and trailing whitespace. -/
def pyStrip (s : Str) : Str :=
  (((s.dropWhile pySpace).reverse.dropWhile pySpace)).reverse

/-- ASCII lowercasing. -/
def lcAscii (c : Char) : Char :=
  if 65 ≤ c.toNat ∧ c.toNat ≤ 90 then Char.ofNat (c.toNat + 32) else c

/-- Case-insensitive character comparison: `re.IGNORECASE`, modelled on
the ASCII range (the pattern's letters and the marker identifiers are all
ASCII). -/
def ciEq (a b : Char) : Bool := lcAscii a = lcAscii b

/-- Match a literal case-insensitively at the head of the input, returning
the remainder. -/
def matchCIL : Str → Str → Option Str
  | [], s => some s
  | _ :: _, [] => none
  | l :: ls, c :: cs => if ciEq l c then matchCIL ls cs else none

/-- Case-insensitive literal test at the head of the input. -/
def isPreCI (lit s : Str) : Bool := (matchCIL lit s).isSome

/-- Exact literal test at the head of the input. -/
def isPreExact : Str → Str → Bool
  | [], _ => true
  | _ :: _, [] => false
  | l :: ls, c :: cs => l = c && isPreExact ls cs

/-- The regex atom `\s+`: at least one whitespace character, consumed
greedily (equivalent to backtracking here, since both following literals
start with a non-space letter). -/
def space1 : Str → Option Str
  | [] => none
  | c :: r => if pySpace c then some (r.dropWhile pySpace) else none

/-- The regex atoms `[^>]*>`: everything up to and including the next `>`. -/
def uptoGt : Str → Option Str
  | [] => none
  | c :: r => if c = '>' then some r else uptoGt r

/-- The opening-tag part of the pattern, matched at the head of the input:
`<script\s+type="text/json"\s+id="{id}"[^>]*>`, case-insensitively.
Returns the input just after the `>` (where the capture group starts). -/
def matchOpenTag (id : Str) (s : Str) : Option Str :=
  (matchCIL "<script".data s).bind fun s1 =>
  (space1 s1).bind fun s2 =>
  (matchCIL "type=\"text/json\"".data s2).bind fun s3 =>
  (space1 s3).bind fun s4 =>
  (matchCIL ("id=\"".data ++ id ++ ['"']) s4).bind fun s5 =>
  uptoGt s5

/-- Model of `re.search` for this pattern: leftmost position at which the
opening tag matches (the trailing `(.*?)(?=...)` always succeeds). -/
def scanOpen (id : Str) : Str → Option Str
  | [] => none
  | c :: r =>
    match matchOpenTag id (c :: r) with
    | some rest => some rest
    | none => scanOpen id r

/-- The lookahead alternatives `<script` / `</body>` (case-insensitive). -/
def stopTok (s : Str) : Bool :=
  isPreCI "<script".data s || isPreCI "</body>".data s

/-- The full lookahead `(?=<script|</body>|$)` at a non-end position:
`<script` or `</body>` starts here, or — since `$` without `re.MULTILINE`
also matches just before a final newline — only a final `'\n'` remains. -/
def stopHere (s : Str) : Bool := stopTok s || s = ['\n']

/-- The lazy capture `(.*?)(?=<script|</body>|$)`: characters up to the
first position where the lookahead succeeds (at end of input it always
does). -/
def captureSpan : Str → Str
  | [] => []
  | c :: r => if stopHere (c :: r) then [] else c :: captureSpan r

/-- Head test for the case-sensitive cleanup token `</script>`. -/
def closeTok (s : Str) : Bool := isPreExact "</script>".data s

/-- The cleanup `re.sub(r'</script>.*$', '', content, flags=re.DOTALL)`:
drop everything from the first (case-sensitive) `</script>` on. -/
def dropFromClose : Str → Str
  | [] => []
  | c :: r => if closeTok (c :: r) then [] else c :: dropFromClose r

/-- The marker-span extractor (spec §4.1): locate the opening marker, take
the lazy capture, strip, cleanup, strip; `none` when the marker is absent. -/
def spanOf (doc : Str) (id : Str) : Option Str :=
  (scanOpen id doc).map fun rest =>
    pyStrip (dropFromClose (pyStrip (captureSpan rest)))

/-- Python `script_id.replace('Json', '')`: remove every occurrence. -/
def stripJsonAll : Str → Str
  | 'J' :: 's' :: 'o' :: 'n' :: r => stripJsonAll r
  | c :: r => c :: stripJsonAll r
  | [] => []

/-- Model of `_camel_to_snake`: underscore before each internal uppercase
letter, then lowercase.  The `Bool` is `true` at the first character. -/
def camelToSnakeGo : Bool → Str → Str
  | _, [] => []
  | first, c :: r =>
    (if c.isUpper && !first then ['_', c.toLower] else [c.toLower])
      ++ camelToSnakeGo false r

/-- Python `self._camel_to_snake(camel_str)`. -/
def camelToSnake (s : Str) : Str := camelToSnakeGo true s

/-- Output key of a script id: `_camel_to_snake(script_id.replace('Json', ''))`. -/
def normKey (id : Str) : Str := camelToSnake (stripJsonAll id)

/-- The class constant `JSON_SCRIPT_IDS`, in declared order. -/
def JSON_SCRIPT_IDS : List Str :=
  ["headerJson".data, "entriesJson".data, "queriesJson".data,
   "sharedQueryTextsJson".data, "mainThreadProfileJson".data,
   "auxThreadProfileJson".data]

/-- One loop iteration of `_extract_json_from_html` for a script id: the
key/value pair it adds to the result dict, or `none` when it adds nothing
(marker absent, or span empty after trimming). -/
def contrib (doc : Str) (id : Str) : Option (Str × JsonVal) :=
  match spanOf doc id with
  | none => none
  | some content =>
    if content = [] then none
    else
      match jsonLoads content with
      | some v => some (normKey id, v)
      | none => some (normKey id ++ "_raw".data, .str content)

/-- One iteration of the loop body of `_extract_json_from_html`: append
the marker's contribution, if any, to the accumulated dict. -/
def extractStep (doc : Str) (acc : List (Str × JsonVal)) (id : Str) :
    List (Str × JsonVal) :=
  match contrib doc id with
  | none => acc
  | some kv => acc ++ [kv]

/-- Model of `_extract_json_from_html`: the loop over `JSON_SCRIPT_IDS`,
accumulating into the ordered result dict. -/
def extractJsonFromHtml (doc : Str) : List (Str × JsonVal) :=
  JSON_SCRIPT_IDS.foldl (extractStep doc) []

/-! ## Orchestration: model of `extract_from_file`, `save_to_file`, `main`

The filesystem is an association list from path to file bytes; reading a
file, `datetime.now()` and the working directory are parameters of the
model.  Written output is returned as a list of (file name, content)
pairs instead of performed as a side effect. -/

/-- A file's bytes. -/
abbrev Bytes := List (Fin 256)

/-- The modelled filesystem: path to contents of existing files. -/
abbrev FS := List (Str × Bytes)

/-- Existence / read lookup. -/
def lookupFs (fs : FS) (path : Str) : Option Bytes :=
  match fs with
  | [] => none
  | (p, b) :: rest => if p = path then some b else lookupFs rest path

/-- A UTF-8 continuation byte: `0x80 ≤ b < 0xC0`. -/
def utf8Cont (b : Fin 256) : Bool := 0x80 ≤ b.val && b.val < 0xC0

/-- Strict UTF-8 decoding, as Python's `utf-8` codec: overlong encodings,
surrogates and values above `0x10FFFF` are rejected. -/
def utf8Decode : Bytes → Option Str
  | [] => some []
  | b :: r =>
    let n := b.val
    if n < 0x80 then (utf8Decode r).map (Char.ofNat n :: ·)
    else if n < 0xC2 then none
    else if n < 0xE0 then
      match r with
      | c1 :: r' =>
        if utf8Cont c1 then
          (utf8Decode r').map (Char.ofNat ((n - 0xC0) * 0x40 + (c1.val - 0x80)) :: ·)
        else none
      | [] => none
    else if n < 0xF0 then
      match r with
      | c1 :: c2 :: r' =>
        let ok1 : Bool :=
          if n = 0xE0 then 0xA0 ≤ c1.val && c1.val < 0xC0
          else if n = 0xED then 0x80 ≤ c1.val && c1.val < 0xA0
          else utf8Cont c1
        if ok1 && utf8Cont c2 then
          (utf8Decode r').map
            (Char.ofNat ((n - 0xE0) * 0x1000 + (c1.val - 0x80) * 0x40 + (c2.val - 0x80)) :: ·)
        else none
      | _ => none
    else if n ≤ 0xF4 then
      match r with
      | c1 :: c2 :: c3 :: r' =>
        let ok1 : Bool :=
          if n = 0xF0 then 0x90 ≤ c1.val && c1.val < 0xC0
          else if n = 0xF4 then 0x80 ≤ c1.val && c1.val < 0x90
          else utf8Cont c1
        if ok1 && utf8Cont c2 && utf8Cont c3 then
          (utf8Decode r').map
            (Char.ofNat ((n - 0xF0) * 0x40000 + (c1.val - 0x80) * 0x1000 +
              (c2.val - 0x80) * 0x40 + (c3.val - 0x80)) :: ·)
        else none
      | _ => none
    else none

/-- The `latin-1` codec: total, one character per byte. -/
def latin1Decode (bs : Bytes) : Str := bs.map fun b => Char.ofNat b.val

/-- The read step of `extract_from_file`: try UTF-8, fall back to latin-1
on a `UnicodeDecodeError`. -/
def readText (bs : Bytes) : Str :=
  match utf8Decode bs with
  | some t => t
  | none => latin1Decode bs

/-- Last path component (`PurePath.name` for plain relative/absolute
POSIX paths without trailing slashes). -/
def lastComp (p : Str) : Str :=
  ((p.reverse.takeWhile (· ≠ '/'))).reverse

/-- Model of `str(Path(p).absolute())`: prepend the working directory
unless the path is already absolute. -/
def absPath (cwd p : Str) : Str :=
  match p with
  | '/' :: _ => p
  | _ => cwd ++ '/' :: p

/-- The reserved metadata key. -/
def metaKey : Str := "extraction_metadata".data

/-- The `extraction_metadata` record built by `extract_from_file`. -/
def mkMetadata (sourceFile sourcePath time : Str) (keys : List Str) : JsonVal :=
  .obj [("source_file".data, .str sourceFile),
        ("source_path".data, .str sourcePath),
        ("extraction_time".data, .str time),
        ("tool_version".data, .str "1.0.0".data),
        ("extracted_scripts".data, .arr (keys.map .str))]

/-- The combined result dict `{'extraction_metadata': ..., **extracted}`,
as an ordered association list. -/
def buildCombined (sourceFile sourcePath time : Str) (doc : Str) :
    List (Str × JsonVal) :=
  let d := extractJsonFromHtml doc
  (metaKey, mkMetadata sourceFile sourcePath time (d.map Prod.fst)) :: d

/-- Failure modes of a run. -/
inductive RunErr where
  | fileNotFound : RunErr
  | keyErr : RunErr
deriving DecidableEq

/-- Model of `extract_from_file`: `FileNotFoundError` when the path does
not exist, otherwise read (UTF-8 with latin-1 fallback), extract and
attach metadata. -/
def extractFromFile (fs : FS) (cwd time : Str) (path : Str) :
    Except RunErr (List (Str × JsonVal)) :=
  match lookupFs fs path with
  | none => .error .fileNotFound
  | some bytes =>
    .ok (buildCombined (lastComp path) (absPath cwd path) time (readText bytes))

/-- Serialize one value the way both save functions do: compact
separators or `indent=2`. -/
def dumpJson (compact : Bool) (v : JsonVal) : Str :=
  if compact then serVal none 0 v else serVal (some 2) 0 v

/-- Model of `_save_combined_file`: the single output file's content. -/
def saveCombined (data : List (Str × JsonVal)) (compact : Bool) : Str :=
  dumpJson compact (.obj data)

/-- Association-list lookup, Python `data['extraction_metadata']`. -/
def lookupKV (ps : List (Str × JsonVal)) (k : Str) : Option JsonVal :=
  match ps with
  | [] => none
  | (k', v) :: rest => if k' = k then some v else lookupKV rest k

/-- Python `Path(p).parent` for plain POSIX paths: everything before the
last `/`, or `.` when there is none. -/
def pyParent (p : Str) : Str :=
  if p.contains '/' then
    let r := p.reverse.dropWhile (· ≠ '/')
    match r with
    | ['/'] => ['/']
    | _ :: rest => rest.reverse
    | [] => ['.']
  else ['.']

/-- Index of the last `.` in a name, or `none` when there is no dot. -/
def lastDotIdx (name : Str) : Option Nat :=
  if name.contains '.' then
    some (name.length - 1 - (name.reverse.takeWhile (· ≠ '.')).length)
  else none

/-- Python `Path(p).stem`, following `pathlib`'s
`i = name.rfind('.'); if 0 < i < len(name) - 1: stem = name[:i]`. -/
def pyStem (p : Str) : Str :=
  let name := lastComp p
  match lastDotIdx name with
  | some i => if 0 < i ∧ i < name.length - 1 then name.take i else name
  | none => name

/-- Model of `_save_separate_files`: the directory
`output_path.parent / output_path.stem` and the files written inside it,
in write order (metadata first, then each non-metadata key).  `none`
models the `KeyError` when the dict has no metadata entry. -/
def saveSeparateFiles (data : List (Str × JsonVal)) (outPath : Str)
    (compact : Bool) : Option (Str × List (Str × Str)) :=
  match lookupKV data metaKey with
  | none => none
  | some m =>
    let base := pyParent outPath ++ '/' :: pyStem outPath
    some (base,
      ("extraction_metadata.json".data, dumpJson compact m) ::
        (data.filter (fun p => p.1 ≠ metaKey)).map
          (fun p => (p.1 ++ ".json".data, dumpJson compact p.2)))

/-- Model of the `main` flow after argument parsing: extract, then save;
any raised error aborts with no file written.  Returns the list of
(file name, content) pairs written. -/
def runMain (fs : FS) (cwd time : Str) (inputPath outPath : Str)
    (separate compact : Bool) : Except RunErr (List (Str × Str)) :=
  match extractFromFile fs cwd time inputPath with
  | .error e => .error e
  | .ok data =>
    if separate then
      match saveSeparateFiles data outPath compact with
      | none => .error .keyErr
      | some (base, files) =>
        .ok (files.map fun f => (base ++ '/' :: f.1, f.2))
    else
      .ok [(outPath, saveCombined data compact)]

/-- Case-insensitive equality of equal-length strings. -/
def ciEqL : Str → Str → Bool
  | [], [] => true
  | l :: ls, c :: cs => ciEq l c && ciEqL ls cs
  | _, _ => false

/-- The six normalized keys, in declared marker order. -/
def sixKeys : List Str :=
  ["header".data, "entries".data, "queries".data, "shared_query_texts".data,
   "main_thread_profile".data, "aux_thread_profile".data]

/-- A document carrying all six markers with integer payloads. -/
def c1doc : Str :=
  ("<script type=\"text/json\" id=\"headerJson\">1</script>" ++
   "<script type=\"text/json\" id=\"entriesJson\">2</script>" ++
   "<script type=\"text/json\" id=\"queriesJson\">3</script>" ++
   "<script type=\"text/json\" id=\"sharedQueryTextsJson\">4</script>" ++
   "<script type=\"text/json\" id=\"mainThreadProfileJson\">5</script>" ++
   "<script type=\"text/json\" id=\"auxThreadProfileJson\">6</script>").data

/-- The whitespace that follows the `:` in a key separator. -/
def kvPad : Option Nat → Str
  | none => []
  | some _ => [' ']

/-! ## General lemmas about the extraction loop -/

/-- The accumulating fold of `_extract_json_from_html` is a `filterMap`:
each marker contributes independently, in declared order. -/
theorem foldl_extractStep (doc : Str) :
    ∀ (l : List Str) (acc : List (Str × JsonVal)),
      l.foldl (extractStep doc) acc = acc ++ l.filterMap (contrib doc) := by
  intro l
  induction l with
  | nil => intro acc; simp
  | cons x xs ih =>
    intro acc
    cases hx : contrib doc x with
    | none => simp [List.foldl_cons, extractStep, hx, ih]
    | some kv => simp [List.foldl_cons, extractStep, hx, ih]

/-- The extraction result, marker by marker. -/
theorem extract_eq_filterMap (doc : Str) :
    extractJsonFromHtml doc = JSON_SCRIPT_IDS.filterMap (contrib doc) := by
  have h := foldl_extractStep doc JSON_SCRIPT_IDS []
  simpa [extractJsonFromHtml] using h

/-! ## Claim C4: key normalization -/

/-- Claim C4: key normalization is a (deterministic, total, pure) function
of the marker identifier, stripping the `Json` suffix and converting
camelCase to snake_case; on each of the six marker identifiers it yields
the expected key, in particular `headerJson ↦ header`,
`sharedQueryTextsJson ↦ shared_query_texts` and
`mainThreadProfileJson ↦ main_thread_profile`. -/
theorem claim_C4_normalization :
    normKey "headerJson".data = "header".data ∧
    normKey "entriesJson".data = "entries".data ∧
    normKey "queriesJson".data = "queries".data ∧
    normKey "sharedQueryTextsJson".data = "shared_query_texts".data ∧
    normKey "mainThreadProfileJson".data = "main_thread_profile".data ∧
    normKey "auxThreadProfileJson".data = "aux_thread_profile".data := by
  exact ⟨rfl, rfl, rfl, rfl, rfl, rfl⟩

/-! ## Claim C7: missing input file -/

/-- Claim C7: when the path does not resolve to an existing file,
`extract_from_file` fails with the NotFound error, and the whole run
writes no output file (it propagates that same error). -/
theorem claim_C7_missing_file (fs : FS) (cwd time path : Str)
    (h : lookupFs fs path = none) :
    (∀ outPath separate compact,
        runMain fs cwd time path outPath separate compact = .error .fileNotFound) ∧
    extractFromFile fs cwd time path = .error .fileNotFound := by
  refine ⟨fun outPath separate compact => ?_, ?_⟩ <;>
    simp [runMain, extractFromFile, h]

/-- Witness for C7 at a concrete filesystem and path. -/
theorem claim_C7_missing_file_witness :
    runMain [] "/w".data "T".data "trace.html".data "out.json".data false true
      = .error .fileNotFound :=
  (claim_C7_missing_file [] "/w".data "T".data "trace.html".data rfl).1
    "out.json".data false true

/-! ## Claim C9: encoding fallback -/

/-- Claim C9: reading attempts UTF-8 first and, when that fails, falls
back to latin-1 instead of aborting: an existing file never makes
`extract_from_file` fail, and the document text is the UTF-8 decoding
when that succeeds, the latin-1 decoding otherwise. -/
theorem claim_C9_encoding_fallback (fs : FS) (cwd time path : Str)
    (bytes : Bytes) (h : lookupFs fs path = some bytes) :
    extractFromFile fs cwd time path
      = .ok (buildCombined (lastComp path) (absPath cwd path) time (readText bytes)) ∧
    (∀ t, utf8Decode bytes = some t → readText bytes = t) ∧
    (utf8Decode bytes = none → readText bytes = latin1Decode bytes) := by
  refine ⟨by simp [extractFromFile, h], fun t ht => ?_, fun hn => ?_⟩
  · simp [readText, ht]
  · simp [readText, hn]

/-- Witness for C9: a file whose bytes are not valid UTF-8 is decoded by
the latin-1 fallback and the run proceeds. -/
theorem claim_C9_encoding_fallback_witness :
    extractFromFile [("f".data, [(0xE9 : Fin 256)])] "/w".data "T".data "f".data
      = .ok (buildCombined "f".data "/w/f".data "T".data [Char.ofNat 0xE9]) ∧
    readText [(0xE9 : Fin 256)] = latin1Decode [(0xE9 : Fin 256)] := by
  have h := claim_C9_encoding_fallback [("f".data, [(0xE9 : Fin 256)])]
    "/w".data "T".data "f".data [(0xE9 : Fin 256)] rfl
  exact ⟨by simpa using h.1, h.2.2 rfl⟩

/-! ## Claim C2: the span extractor -/

/-- The lazy capture takes exactly the characters before the first
position where the lookahead succeeds. -/
theorem captureSpan_spec : ∀ rest : Str, ∃ n, n ≤ rest.length ∧
    captureSpan rest = rest.take n ∧
    (∀ k, k < n → stopHere (rest.drop k) = false) ∧
    (n = rest.length ∨ stopHere (rest.drop n) = true) := by
  intro rest
  induction rest with
  | nil => exact ⟨0, by simp [captureSpan]⟩
  | cons c r ih =>
    by_cases h : stopHere (c :: r) = true
    · exact ⟨0, by simp [captureSpan, h]⟩
    · obtain ⟨n, hn, hc, hk, he⟩ := ih
      refine ⟨n + 1, by simpa using hn, ?_, ?_, ?_⟩
      · simp [captureSpan, h, hc]
      · intro k hk'
        cases k with
        | zero => simpa using h
        | succ k => exact hk k (by omega)
      · simpa using he

/-- The cleanup step drops exactly the characters from the first
case-sensitive `</script>` on. -/
theorem dropFromClose_spec : ∀ s : Str, ∃ m, m ≤ s.length ∧
    dropFromClose s = s.take m ∧
    (∀ k, k < m → closeTok (s.drop k) = false) ∧
    (m = s.length ∨ closeTok (s.drop m) = true) := by
  intro s
  induction s with
  | nil => exact ⟨0, by simp [dropFromClose]⟩
  | cons c r ih =>
    by_cases h : closeTok (c :: r) = true
    · exact ⟨0, by simp [dropFromClose, h]⟩
    · obtain ⟨m, hm, hc, hk, he⟩ := ih
      refine ⟨m + 1, by simpa using hm, ?_, ?_, ?_⟩
      · simp [dropFromClose, h, hc]
      · intro k hk'
        cases k with
        | zero => simpa using h
        | succ k => exact hk k (by omega)
      · simpa using he

/-- Unfolding of `pyStrip` through Mathlib's `rdropWhile`. -/
theorem pyStrip_eq (s : Str) :
    pyStrip s = (s.dropWhile pySpace).rdropWhile pySpace := rfl

/-- Stripping is idempotent; in particular every produced span is already
whitespace-trimmed. -/
theorem pyStrip_idem (s : Str) : pyStrip (pyStrip s) = pyStrip s := by
  rw [pyStrip_eq, pyStrip_eq]
  have ht : (s.dropWhile pySpace).dropWhile pySpace = s.dropWhile pySpace :=
    List.dropWhile_idempotent _ _
  set t := s.dropWhile pySpace with hs
  have hpre : t.rdropWhile pySpace <+: t := List.rdropWhile_prefix _ _
  have h2 : (t.rdropWhile pySpace).dropWhile pySpace = t.rdropWhile pySpace := by
    rw [List.dropWhile_eq_self_iff]
    intro hl
    have hlt : 0 < t.length := lt_of_lt_of_le hl hpre.length_le
    have hget := hpre.getElem (show 0 < (t.rdropWhile pySpace).length from hl)
    rw [List.get_eq_getElem, hget]
    have := List.dropWhile_eq_self_iff.mp ht hlt
    rwa [List.get_eq_getElem] at this
  rw [h2, List.rdropWhile_idempotent]

/-- Claim C2: the span extractor's contract.  Conjuncts: (1) the lazy
capture takes everything up to the first `<script` / `</body>` lookahead
hit or end of input; (2) the cleanup truncates at the first dangling
`</script>` token; (3) every produced span is whitespace-trimmed; (4) a
marker with no opening match contributes no key; (5) a marker whose
trimmed span is empty contributes no key; (6) the loop over the remaining
markers continues regardless: the result is the independent per-marker
`filterMap` over all identifiers in declared order. -/
theorem claim_C2_span_extractor :
    (∀ rest : Str, ∃ n, n ≤ rest.length ∧
      captureSpan rest = rest.take n ∧
      (∀ k, k < n → stopHere (rest.drop k) = false) ∧
      (n = rest.length ∨ stopHere (rest.drop n) = true)) ∧
    (∀ s : Str, ∃ m, m ≤ s.length ∧
      dropFromClose s = s.take m ∧
      (∀ k, k < m → closeTok (s.drop k) = false) ∧
      (m = s.length ∨ closeTok (s.drop m) = true)) ∧
    (∀ doc id c, spanOf doc id = some c → pyStrip c = c) ∧
    (∀ doc id, scanOpen id doc = none → contrib doc id = none) ∧
    (∀ doc id, spanOf doc id = some [] → contrib doc id = none) ∧
    (∀ doc, extractJsonFromHtml doc = JSON_SCRIPT_IDS.filterMap (contrib doc)) := by
  refine ⟨captureSpan_spec, dropFromClose_spec, ?_, ?_, ?_, extract_eq_filterMap⟩
  · intro doc id c hc
    unfold spanOf at hc
    cases h1 : scanOpen id doc with
    | none => rw [h1] at hc; simp at hc
    | some rest =>
      rw [h1] at hc
      simp only [Option.map_some', Option.some.injEq] at hc
      rw [← hc]
      exact pyStrip_idem _
  · intro doc id h
    simp [contrib, spanOf, h]
  · intro doc id h
    simp [contrib, h]

/-- Witness for C2, applying the trimmedness conjunct to a concrete
extracted span and the absence conjunct to a concrete marker-free
document. -/
theorem claim_C2_span_extractor_witness :
    pyStrip ['7'] = ['7'] ∧ contrib "no markers".data "headerJson".data = none :=
  ⟨claim_C2_span_extractor.2.2.1
      "<script type=\"text/json\" id=\"headerJson\">7</script>".data
      "headerJson".data ['7'] (by decide),
    claim_C2_span_extractor.2.2.2.1 "no markers".data "headerJson".data (by decide)⟩

/-! ## Claim C10: exact attribute form of a recognized marker -/

/-- A case-insensitive literal matches exactly the inputs that start with
a CI-equal copy of it. -/
theorem matchCIL_iff : ∀ (lit s r : Str),
    matchCIL lit s = some r ↔ ∃ a, ciEqL lit a = true ∧ s = a ++ r := by
  intro lit
  induction lit with
  | nil =>
    intro s r
    constructor
    · intro h
      exact ⟨[], rfl, by simpa [matchCIL] using h⟩
    · rintro ⟨a, ha, hs⟩
      cases a with
      | nil => simp [matchCIL, hs]
      | cons x xs => simp [ciEqL] at ha
  | cons l ls ih =>
    intro s r
    constructor
    · intro h
      cases s with
      | nil => simp [matchCIL] at h
      | cons c cs =>
        by_cases hc : ciEq l c = true
        · rw [show matchCIL (l :: ls) (c :: cs) = matchCIL ls cs by
            simp [matchCIL, hc]] at h
          obtain ⟨a, ha, hcs⟩ := (ih cs r).mp h
          exact ⟨c :: a, by simp [ciEqL, hc, ha], by simp [hcs]⟩
        · simp [matchCIL, hc] at h
    · rintro ⟨a, ha, hs⟩
      cases a with
      | nil => simp [ciEqL] at ha
      | cons a0 a' =>
        simp only [ciEqL, Bool.and_eq_true] at ha
        rw [hs, List.cons_append,
          show matchCIL (l :: ls) (a0 :: (a' ++ r))
            = matchCIL ls (a' ++ r) by simp [matchCIL, ha.1]]
        exact (ih (a' ++ r) r).mpr ⟨a', ha.2, rfl⟩

/-- Dropping whitespace runs past an all-whitespace block stops at the
first non-whitespace head. -/
theorem dropWhile_pySpace_append : ∀ (w t : Str), w.all pySpace = true →
    (∀ h : t ≠ [], pySpace (t.head h) = false) →
    (w ++ t).dropWhile pySpace = t := by
  intro w
  induction w with
  | nil =>
    intro t _ ht
    cases t with
    | nil => rfl
    | cons c cs =>
      have hcf : pySpace c = false := by simpa using ht (by simp)
      simp [List.dropWhile_cons, hcf]
  | cons x xs ih =>
    intro t hw ht
    simp only [List.all_cons, Bool.and_eq_true] at hw
    simpa [List.dropWhile_cons, hw.1] using ih t hw.2 ht

/-- The regex atom `\s+` succeeds exactly on inputs that start with a
nonempty whitespace run; when the remainder starts with a non-whitespace
character the remainder is returned exactly. -/
theorem space1_some {s r : Str} (h : space1 s = some r) :
    ∃ w, w ≠ [] ∧ w.all pySpace = true ∧ s = w ++ r := by
  cases s with
  | nil => simp [space1] at h
  | cons c cs =>
    by_cases hc : pySpace c = true
    · refine ⟨c :: cs.takeWhile pySpace, by simp, ?_, ?_⟩
      · simp only [List.all_cons, Bool.and_eq_true]
        exact ⟨hc, List.all_eq_true.mpr fun x hx => List.mem_takeWhile_imp hx⟩
      · have hr : r = cs.dropWhile pySpace := by simpa [space1, hc] using h.symm
        simp [hr, List.takeWhile_append_dropWhile]
    · simp [space1, hc] at h

/-- Converse of `space1_some`, for remainders not starting with
whitespace. -/
theorem space1_append {w t : Str} (hw : w ≠ []) (hall : w.all pySpace = true)
    (ht : ∀ h : t ≠ [], pySpace (t.head h) = false) :
    space1 (w ++ t) = some t := by
  cases w with
  | nil => exact absurd rfl hw
  | cons x xs =>
    simp only [List.all_cons, Bool.and_eq_true] at hall
    simp [space1, hall.1, dropWhile_pySpace_append xs t hall.2 ht]

/-- A character whose ASCII lowercasing is a lowercase letter is not
Python whitespace. -/
theorem not_pySpace_of_lc_letter {c : Char} (hl : 97 ≤ (lcAscii c).toNat)
    (hr : (lcAscii c).toNat ≤ 122) : pySpace c = false := by
  by_contra hsp
  rw [Bool.not_eq_false] at hsp
  have hd : c = ' ' ∨ c = '\t' ∨ c = '\n' ∨ c = '\r' ∨ c = Char.ofNat 11 ∨
      c = Char.ofNat 12 ∨ c = Char.ofNat 28 ∨ c = Char.ofNat 29 ∨
      c = Char.ofNat 30 ∨ c = Char.ofNat 31 ∨ c = Char.ofNat 0x85 ∨
      c = Char.ofNat 0xA0 ∨ c = Char.ofNat 0x1680 ∨
      (0x2000 ≤ c.toNat ∧ c.toNat ≤ 0x200A) ∨ c = Char.ofNat 0x2028 ∨
      c = Char.ofNat 0x2029 ∨ c = Char.ofNat 0x202F ∨ c = Char.ofNat 0x205F ∨
      c = Char.ofNat 0x3000 := by simpa [pySpace, or_assoc] using hsp
  have hbig : ∀ {d : Char}, 0x2000 ≤ d.toNat → lcAscii d = d := by
    intro d hd2
    unfold lcAscii
    rw [if_neg]
    rintro ⟨-, h2⟩
    omega
  rcases hd with h | h | h | h | h | h | h | h | h | h | h | h | h | h | h | h | h | h | h
  all_goals first
  | (subst h; revert hl hr; decide)
  | (obtain ⟨h1, h2⟩ := h
     rw [hbig h1] at hl hr
     omega)

/-- A nonempty case-insensitive literal forces a nonempty match whose
head is CI-equal to the literal's head. -/
theorem ciEqL_cons {l : Char} {ls b : Str} (hb : ciEqL (l :: ls) b = true) :
    ∃ b0 b', b = b0 :: b' ∧ ciEq l b0 = true := by
  cases b with
  | nil => simp [ciEqL] at hb
  | cons b0 b' =>
    refine ⟨b0, b', rfl, ?_⟩
    have := hb
    simp only [ciEqL, Bool.and_eq_true] at this
    exact this.1

/-- A character CI-equal to a lowercase letter is not whitespace. -/
theorem not_pySpace_of_ciEq {l b0 : Char} (hl : 97 ≤ (lcAscii l).toNat)
    (hr : (lcAscii l).toNat ≤ 122) (h : ciEq l b0 = true) :
    pySpace b0 = false := by
  have hbl : lcAscii l = lcAscii b0 := by simpa [ciEq] using h
  exact not_pySpace_of_lc_letter (hbl ▸ hl) (hbl ▸ hr)

/-- The regex atoms `[^>]*>` succeed exactly on inputs consisting of a
`>`-free block, a `>`, and the returned remainder. -/
theorem uptoGt_iff : ∀ (s r : Str),
    uptoGt s = some r ↔ ∃ j, (∀ x ∈ j, x ≠ '>') ∧ s = j ++ '>' :: r := by
  intro s
  induction s with
  | nil =>
    intro r
    constructor
    · intro h; simp [uptoGt] at h
    · rintro ⟨j, -, hj⟩; simp at hj
  | cons c cs ih =>
    intro r
    by_cases hc : c = '>'
    · subst hc
      constructor
      · intro h
        refine ⟨[], by simp, ?_⟩
        have hcr : cs = r := by simpa [uptoGt] using h
        simp [hcr]
      · rintro ⟨j, hne, hj⟩
        cases j with
        | nil =>
          simp only [List.nil_append, List.cons.injEq] at hj
          simp [uptoGt, hj.2]
        | cons j0 js =>
          simp only [List.cons_append, List.cons.injEq] at hj
          exact absurd hj.1.symm (hne j0 (by simp))
    · constructor
      · intro h
        obtain ⟨j, hne, hj⟩ := (ih r).mp (by simpa [uptoGt, hc] using h)
        exact ⟨c :: j, by simpa [hc] using hne, by simp [hj]⟩
      · rintro ⟨j, hne, hj⟩
        cases j with
        | nil =>
          simp only [List.nil_append, List.cons.injEq] at hj
          exact absurd hj.1 hc
        | cons j0 js =>
          simp only [List.cons_append, List.cons.injEq] at hj
          rw [show uptoGt (c :: cs) = uptoGt cs by simp [uptoGt, hc]]
          exact (ih r).mpr ⟨js, fun x hx => hne x (by simp [hx]), hj.2⟩

/-- Claim C10: a marker is recognized at a position exactly when the text
there has the literal shape `<script`, whitespace, `type="text/json"`,
whitespace, `id="<identifier>"`, a `>`-free attribute remainder, and `>`
(double quotes required, letters compared case-insensitively); in
particular documents whose marker element lists `id` before `type`, uses
single quotes, or glues the tag name to the `type` attribute, yield no
extracted key. -/
theorem claim_C10_exact_marker_form :
    (∀ (id s r : Str), matchOpenTag id s = some r ↔
      ∃ a w1 b w2 cid j,
        ciEqL "<script".data a = true ∧
        w1 ≠ [] ∧ w1.all pySpace = true ∧
        ciEqL "type=\"text/json\"".data b = true ∧
        w2 ≠ [] ∧ w2.all pySpace = true ∧
        ciEqL ("id=\"".data ++ id ++ ['"']) cid = true ∧
        (∀ x ∈ j, x ≠ '>') ∧
        s = a ++ w1 ++ b ++ w2 ++ cid ++ j ++ '>' :: r) ∧
    extractJsonFromHtml "<script id=\"headerJson\" type=\"text/json\">1</script>".data = [] ∧
    extractJsonFromHtml "<script type='text/json' id='headerJson'>1</script>".data = [] ∧
    extractJsonFromHtml "<script-type=\"text/json\" id=\"headerJson\">1</script>".data = [] := by
  refine ⟨?_, rfl, rfl, rfl⟩
  intro id s r
  constructor
  · intro h
    unfold matchOpenTag at h
    obtain ⟨s1, h1, h⟩ := Option.bind_eq_some'.mp h
    obtain ⟨s2, h2, h⟩ := Option.bind_eq_some'.mp h
    obtain ⟨s3, h3, h⟩ := Option.bind_eq_some'.mp h
    obtain ⟨s4, h4, h⟩ := Option.bind_eq_some'.mp h
    obtain ⟨s5, h5, h6⟩ := Option.bind_eq_some'.mp h
    obtain ⟨a, ha, hsa⟩ := (matchCIL_iff _ s s1).mp h1
    obtain ⟨w1, hw1ne, hw1, hs1⟩ := space1_some h2
    obtain ⟨b, hb, hs2⟩ := (matchCIL_iff _ s2 s3).mp h3
    obtain ⟨w2, hw2ne, hw2, hs3⟩ := space1_some h4
    obtain ⟨cid, hcid, hs4⟩ := (matchCIL_iff _ s4 s5).mp h5
    obtain ⟨j, hj, hs5⟩ := (uptoGt_iff s5 r).mp h6
    refine ⟨a, w1, b, w2, cid, j, ha, hw1ne, hw1, hb, hw2ne, hw2, hcid, hj, ?_⟩
    subst hsa hs1 hs2 hs3 hs4 hs5
    simp [List.append_assoc]
  · rintro ⟨a, w1, b, w2, cid, j, ha, hw1ne, hw1, hb, hw2ne, hw2, hcid, hj, hs⟩
    subst hs
    obtain ⟨b0, b', rfl, hcib⟩ :=
      @ciEqL_cons 't' "ype=\"text/json\"".data _ hb
    obtain ⟨c0, c', rfl, hcic⟩ :=
      @ciEqL_cons 'i' ("d=\"".data ++ id ++ ['"']) _ hcid
    have e1 : matchCIL "<script".data
        (a ++ (w1 ++ ((b0 :: b') ++ (w2 ++ ((c0 :: c') ++ (j ++ '>' :: r))))))
        = some (w1 ++ ((b0 :: b') ++ (w2 ++ ((c0 :: c') ++ (j ++ '>' :: r))))) :=
      (matchCIL_iff _ _ _).mpr ⟨a, ha, rfl⟩
    have e2 : space1 (w1 ++ ((b0 :: b') ++ (w2 ++ ((c0 :: c') ++ (j ++ '>' :: r)))))
        = some ((b0 :: b') ++ (w2 ++ ((c0 :: c') ++ (j ++ '>' :: r)))) := by
      refine space1_append hw1ne hw1 ?_
      intro hne
      simpa using not_pySpace_of_ciEq (l := 't') (by decide) (by decide) hcib
    have e3 : matchCIL "type=\"text/json\"".data
        ((b0 :: b') ++ (w2 ++ ((c0 :: c') ++ (j ++ '>' :: r))))
        = some (w2 ++ ((c0 :: c') ++ (j ++ '>' :: r))) :=
      (matchCIL_iff _ _ _).mpr ⟨b0 :: b', hb, rfl⟩
    have e4 : space1 (w2 ++ ((c0 :: c') ++ (j ++ '>' :: r)))
        = some ((c0 :: c') ++ (j ++ '>' :: r)) := by
      refine space1_append hw2ne hw2 ?_
      intro hne
      simpa using not_pySpace_of_ciEq (l := 'i') (by decide) (by decide) hcic
    have e5 : matchCIL ("id=\"".data ++ id ++ ['"'])
        ((c0 :: c') ++ (j ++ '>' :: r)) = some (j ++ '>' :: r) :=
      (matchCIL_iff _ _ _).mpr ⟨c0 :: c', hcid, rfl⟩
    have e6 : uptoGt (j ++ '>' :: r) = some r := (uptoGt_iff _ _).mpr ⟨j, hj, rfl⟩
    unfold matchOpenTag
    simp only [List.append_assoc, List.cons_append] at e1 e2 e3 e4 e5 e6 ⊢
    rw [e1]
    simp only [Option.some_bind]
    rw [e2]
    simp only [Option.some_bind]
    rw [e3]
    simp only [Option.some_bind]
    rw [e4]
    simp only [Option.some_bind]
    rw [e5]
    simp only [Option.some_bind]
    exact e6

/-- Witness for C10, applying the shape characterization at a concrete
document: the canonical marker text is recognized, with the decomposition
it asserts. -/
theorem claim_C10_exact_marker_form_witness :
    matchOpenTag "headerJson".data
      "<script type=\"text/json\" id=\"headerJson\">rest".data = some "rest".data :=
  (claim_C10_exact_marker_form.1 "headerJson".data
    "<script type=\"text/json\" id=\"headerJson\">rest".data "rest".data).mpr
    ⟨"<script".data, [' '], "type=\"text/json\"".data, [' '],
      "id=\"headerJson\"".data, [], rfl, by simp, rfl, rfl,
      by simp, rfl, rfl, by simp, rfl⟩

/-! ## Claim C8: case sensitivity of the identifier match

The claim says matching is case-insensitive *only* on the structural
keyword, so an id differing from the marker identifier in letter case
would be treated as absent.  The code passes `re.IGNORECASE` for the
whole pattern, id included, so such a marker is matched. -/

/-- Reflexivity of case-insensitive string equality. -/
theorem ciEqL_refl : ∀ l : Str, ciEqL l l = true := by
  intro l
  induction l with
  | nil => rfl
  | cons c cs ih => simp [ciEqL, ciEq, ih]

/-- Case-insensitive equality is preserved by appending. -/
theorem ciEqL_append : ∀ {a b c d : Str}, ciEqL a b = true → ciEqL c d = true →
    ciEqL (a ++ c) (b ++ d) = true := by
  intro a
  induction a with
  | nil =>
    intro b c d hab hcd
    cases b with
    | nil => simpa using hcd
    | cons x xs => simp [ciEqL] at hab
  | cons x xs ih =>
    intro b c d hab hcd
    cases b with
    | nil => simp [ciEqL] at hab
    | cons y ys =>
      simp only [ciEqL, Bool.and_eq_true] at hab
      simpa [ciEqL, hab.1] using ih hab.2 hcd

/-- Matching a literal case-insensitively only depends on the literal up
to case. -/
theorem matchCIL_congr : ∀ {l1 l2 : Str}, ciEqL l1 l2 = true →
    ∀ s, matchCIL l1 s = matchCIL l2 s := by
  intro l1
  induction l1 with
  | nil =>
    intro l2 h s
    cases l2 with
    | nil => rfl
    | cons y ys => simp [ciEqL] at h
  | cons x xs ih =>
    intro l2 h s
    cases l2 with
    | nil => simp [ciEqL] at h
    | cons y ys =>
      simp only [ciEqL, Bool.and_eq_true] at h
      have hq : lcAscii x = lcAscii y := by simpa [ciEq] using h.1
      cases s with
      | nil => rfl
      | cons c cs =>
        have hc : ciEq x c = ciEq y c := by simp [ciEq, hq]
        by_cases hxc : ciEq x c = true
        · rw [show matchCIL (x :: xs) (c :: cs) = matchCIL xs cs by
              simp [matchCIL, hxc],
            show matchCIL (y :: ys) (c :: cs) = matchCIL ys cs by
              simp [matchCIL, hc ▸ hxc]]
          exact ih h.2 cs
        · rw [show matchCIL (x :: xs) (c :: cs) = none by simp [matchCIL, hxc],
            show matchCIL (y :: ys) (c :: cs) = none by
              simp [matchCIL, hc ▸ hxc]]

/-- The opening-tag matcher treats the requested identifier
case-insensitively. -/
theorem matchOpenTag_congr {id1 id2 : Str} (h : ciEqL id1 id2 = true)
    (s : Str) : matchOpenTag id1 s = matchOpenTag id2 s := by
  unfold matchOpenTag
  have hlit : ∀ t, matchCIL ("id=\"".data ++ id1 ++ ['"']) t
      = matchCIL ("id=\"".data ++ id2 ++ ['"']) t :=
    matchCIL_congr (ciEqL_append (ciEqL_append (ciEqL_refl _) h) (ciEqL_refl _))
  simp only [hlit]

/-- Counterexample to claim C8: a document whose marker id differs from
`headerJson` only in letter case is *not* treated as absent — the marker
is matched and its payload extracted under the canonical key. -/
theorem claim_C8_counterexample :
    contrib "<script type=\"text/json\" id=\"HEADERJSON\">1</script>".data
        "headerJson".data = some ("header".data, JsonVal.num 1) ∧
    extractJsonFromHtml "<script type=\"text/json\" id=\"HEADERJSON\">1</script>".data
      = [("header".data, JsonVal.num 1)] := ⟨rfl, rfl⟩

/-- Amended claim C8: marker matching is case-insensitive on the whole
pattern, the identifier attribute included — identifiers equal up to
letter case match at exactly the same places and extract the same span. -/
theorem claim_C8_ci_matching (id1 id2 : Str) (h : ciEqL id1 id2 = true) :
    ∀ doc : Str, scanOpen id1 doc = scanOpen id2 doc ∧
      spanOf doc id1 = spanOf doc id2 := by
  have hscan : ∀ doc : Str, scanOpen id1 doc = scanOpen id2 doc := by
    intro doc
    induction doc with
    | nil => rfl
    | cons c r ih =>
      simp only [scanOpen, matchOpenTag_congr h, ih]
  exact fun doc => ⟨hscan doc, by simp [spanOf, hscan doc]⟩

/-- Witness for the amended C8 at a concrete case-variant document. -/
theorem claim_C8_ci_matching_witness :
    spanOf "<script type=\"text/json\" id=\"HEADERJSON\">1</script>".data
        "headerJson".data
      = spanOf "<script type=\"text/json\" id=\"HEADERJSON\">1</script>".data
        "HEADERJSON".data :=
  (claim_C8_ci_matching "headerJson".data "HEADERJSON".data (by decide)
    "<script type=\"text/json\" id=\"HEADERJSON\">1</script>".data).2

/-! ## Claim C1: all six markers present with valid payloads -/

/-- A marker whose span decodes contributes its normalized key and the
decoded value (the span is nonempty because the empty span never
decodes). -/
theorem contrib_of_decode {doc id c : Str} {v : JsonVal}
    (hs : spanOf doc id = some c) (hj : jsonLoads c = some v) :
    contrib doc id = some (normKey id, v) := by
  have hne : c ≠ [] := by
    rintro rfl
    rw [show jsonLoads [] = none from rfl] at hj
    exact Option.noConfusion hj
  unfold contrib
  rw [hs]
  simp [hne, hj]

/-- Claim C1: when every marker is present with a decodable span, the
result holds exactly the six normalized keys in declared order, each
mapped to its decoded value, and the metadata's `extracted_scripts` is
that same key list. -/
theorem claim_C1_all_markers (doc : Str)
    (h : ∀ id ∈ JSON_SCRIPT_IDS, ∃ c v, spanOf doc id = some c ∧
      jsonLoads c = some v) :
    (extractJsonFromHtml doc).map Prod.fst = sixKeys ∧
    (∀ id ∈ JSON_SCRIPT_IDS, ∀ c v, spanOf doc id = some c →
      jsonLoads c = some v → (normKey id, v) ∈ extractJsonFromHtml doc) ∧
    (∀ sourceFile sourcePath time, buildCombined sourceFile sourcePath time doc
      = (metaKey, mkMetadata sourceFile sourcePath time sixKeys)
          :: extractJsonFromHtml doc) := by
  have hmem : ∀ id ∈ JSON_SCRIPT_IDS, ∀ c v, spanOf doc id = some c →
      jsonLoads c = some v → (normKey id, v) ∈ extractJsonFromHtml doc := by
    intro id hid c v hs hj
    rw [extract_eq_filterMap]
    exact List.mem_filterMap.mpr ⟨id, hid, contrib_of_decode hs hj⟩
  obtain ⟨c1, v1, hs1, hj1⟩ := h "headerJson".data (by simp [JSON_SCRIPT_IDS])
  obtain ⟨c2, v2, hs2, hj2⟩ := h "entriesJson".data (by simp [JSON_SCRIPT_IDS])
  obtain ⟨c3, v3, hs3, hj3⟩ := h "queriesJson".data (by simp [JSON_SCRIPT_IDS])
  obtain ⟨c4, v4, hs4, hj4⟩ :=
    h "sharedQueryTextsJson".data (by simp [JSON_SCRIPT_IDS])
  obtain ⟨c5, v5, hs5, hj5⟩ :=
    h "mainThreadProfileJson".data (by simp [JSON_SCRIPT_IDS])
  obtain ⟨c6, v6, hs6, hj6⟩ :=
    h "auxThreadProfileJson".data (by simp [JSON_SCRIPT_IDS])
  have hkeys : (extractJsonFromHtml doc).map Prod.fst = sixKeys := by
    rw [extract_eq_filterMap]
    rw [show JSON_SCRIPT_IDS = ["headerJson".data, "entriesJson".data,
      "queriesJson".data, "sharedQueryTextsJson".data,
      "mainThreadProfileJson".data, "auxThreadProfileJson".data] from rfl]
    simp only [List.filterMap_cons, contrib_of_decode hs1 hj1,
      contrib_of_decode hs2 hj2, contrib_of_decode hs3 hj3,
      contrib_of_decode hs4 hj4, contrib_of_decode hs5 hj5,
      contrib_of_decode hs6 hj6, List.filterMap_nil]
    rfl
  refine ⟨hkeys, hmem, fun sourceFile sourcePath time => ?_⟩
  show (metaKey, mkMetadata sourceFile sourcePath time
      ((extractJsonFromHtml doc).map Prod.fst)) :: extractJsonFromHtml doc
    = (metaKey, mkMetadata sourceFile sourcePath time sixKeys)
      :: extractJsonFromHtml doc
  rw [hkeys]

/-- Witness for C1 on `c1doc`. -/
theorem claim_C1_all_markers_witness :
    (extractJsonFromHtml c1doc).map Prod.fst = sixKeys := by
  refine (claim_C1_all_markers c1doc ?_).1
  intro id hid
  rw [show JSON_SCRIPT_IDS = ["headerJson".data, "entriesJson".data,
    "queriesJson".data, "sharedQueryTextsJson".data,
    "mainThreadProfileJson".data, "auxThreadProfileJson".data] from rfl] at hid
  simp only [List.mem_cons, List.not_mem_nil, or_false] at hid
  rcases hid with rfl | rfl | rfl | rfl | rfl | rfl
  · exact ⟨['1'], .num 1, rfl, rfl⟩
  · exact ⟨['2'], .num 2, rfl, rfl⟩
  · exact ⟨['3'], .num 3, rfl, rfl⟩
  · exact ⟨['4'], .num 4, rfl, rfl⟩
  · exact ⟨['5'], .num 5, rfl, rfl⟩
  · exact ⟨['6'], .num 6, rfl, rfl⟩

/-! ## Round-trip groundwork: numbers -/

/-- Decimal digit characters produced by `natDigits`. -/
theorem digitChar_facts : ∀ d : Nat, d < 10 →
    (Char.ofNat (48 + d)).isDigit = true ∧ (Char.ofNat (48 + d)).toNat = 48 + d ∧
    Char.ofNat (48 + d) ≠ '-' ∧ Char.ofNat (48 + d) ≠ 'n' ∧
    Char.ofNat (48 + d) ≠ 't' ∧ Char.ofNat (48 + d) ≠ 'f' ∧
    Char.ofNat (48 + d) ≠ '"' ∧ Char.ofNat (48 + d) ≠ '[' ∧
    Char.ofNat (48 + d) ≠ lbrace ∧ jsonWs (Char.ofNat (48 + d)) = false ∧
    Char.ofNat (48 + d) ≠ ']' ∧ Char.ofNat (48 + d) ≠ rbrace ∧
    Char.ofNat (48 + d) ≠ ',' := by decide

/-- Unfolding equation of `natDigits` in the small case. -/
theorem natDigits_small {n : Nat} (h : n < 10) :
    natDigits n = [Char.ofNat (48 + n)] := by
  rw [natDigits, dif_pos h]

/-- Unfolding equation of `natDigits` in the recursive case. -/
theorem natDigits_big {n : Nat} (h : ¬n < 10) :
    natDigits n = natDigits (n / 10) ++ [Char.ofNat (48 + n % 10)] := by
  conv => lhs; rw [natDigits]
  rw [dif_neg h]

/-- A digit run followed by a delimiter stops the accumulator exactly
there. -/
theorem parseDigitsAcc_stop {rest : Str} (h : numDelim rest = true)
    (acc : Nat) : parseDigitsAcc acc rest = (acc, rest) := by
  cases rest with
  | nil => rfl
  | cons c r =>
    simp only [numDelim, Bool.not_eq_eq_eq_not, Bool.not_true, Bool.or_eq_false_iff,
      decide_eq_false_iff_not] at h
    simp [parseDigitsAcc, h.1.1]

/-- Feeding the digits of `n` into the accumulator multiplies it past
them and adds `n`. -/
theorem parseDigitsAcc_append : ∀ (n : Nat) (acc : Nat) (rest : Str),
    parseDigitsAcc acc (natDigits n ++ rest)
      = parseDigitsAcc (acc * 10 ^ (natDigits n).length + n) rest := by
  intro n
  induction n using Nat.strong_induction_on with
  | _ n ih =>
    intro acc rest
    by_cases h : n < 10
    · obtain ⟨hd, ht, -⟩ := digitChar_facts n h
      rw [natDigits_small h]
      simp [parseDigitsAcc, hd, ht]
    · obtain ⟨hd, ht, -⟩ := digitChar_facts (n % 10) (Nat.mod_lt _ (by omega))
      rw [natDigits_big h, List.append_assoc, List.cons_append, List.nil_append,
        ih (n / 10) (Nat.div_lt_self (by omega) (by omega)) acc
          (Char.ofNat (48 + n % 10) :: rest)]
      rw [show parseDigitsAcc (acc * 10 ^ (natDigits (n / 10)).length + n / 10)
          (Char.ofNat (48 + n % 10) :: rest)
        = parseDigitsAcc ((acc * 10 ^ (natDigits (n / 10)).length + n / 10) * 10
            + (48 + n % 10 - 48)) rest by simp [parseDigitsAcc, hd, ht]]
      have hlen : (natDigits (n / 10) ++ [Char.ofNat (48 + n % 10)]).length
          = (natDigits (n / 10)).length + 1 := by simp
      congr 1
      have e48 : 48 + n % 10 - 48 = n % 10 := by omega
      rw [e48, hlen, pow_succ]
      rw [show (acc * 10 ^ (natDigits (n / 10)).length + n / 10) * 10 + n % 10
        = acc * (10 ^ (natDigits (n / 10)).length * 10) + (n / 10 * 10 + n % 10)
        from by ring]
      congr 1
      omega

/-- The leading digit of `natDigits n`: nonzero when `n` is nonzero. -/
theorem natDigits_head : ∀ n : Nat, ∃ d t, d < 10 ∧ (0 < n → 0 < d) ∧
    natDigits n = Char.ofNat (48 + d) :: t := by
  intro n
  induction n using Nat.strong_induction_on with
  | _ n ih =>
    by_cases h : n < 10
    · exact ⟨n, [], h, fun hp => hp, natDigits_small h⟩
    · obtain ⟨d, t, hd, hdp, ht⟩ := ih (n / 10) (Nat.div_lt_self (by omega) (by omega))
      exact ⟨d, t ++ [Char.ofNat (48 + n % 10)], hd,
        fun _ => hdp (by omega), by rw [natDigits_big h, ht]; simp⟩

/-- Parsing the unsigned digits of `n` back yields `n`. -/
theorem parseNat0_natDigits (n : Nat) (rest : Str) (h : numDelim rest = true) :
    parseNat0 (natDigits n ++ rest) = some (n, rest) := by
  obtain ⟨d, t, hd, hdp, ht⟩ := natDigits_head n
  by_cases hz : n = 0
  · subst hz
    rw [natDigits_small (by omega)]
    simp [parseNat0]
  · have hdpos : 0 < d := hdp (by omega)
    have hne0 : Char.ofNat (48 + d) ≠ '0' := by
      intro hcon
      have : (Char.ofNat (48 + d)).toNat = 48 + d := (digitChar_facts d hd).2.1
      rw [hcon] at this
      simp at this
      omega
    obtain ⟨hdig, htoNat, -⟩ := digitChar_facts d hd
    rw [ht, List.cons_append]
    rw [show parseNat0 (Char.ofNat (48 + d) :: (t ++ rest))
      = some (parseDigitsAcc (48 + d - 48) (t ++ rest)) by
        simp [parseNat0, hne0, hdig, htoNat]]
    have hstep : parseDigitsAcc 0 (Char.ofNat (48 + d) :: (t ++ rest))
        = parseDigitsAcc (48 + d - 48) (t ++ rest) := by
      simp [parseDigitsAcc, hdig, htoNat]
    rw [← hstep, show Char.ofNat (48 + d) :: (t ++ rest)
      = natDigits n ++ rest by rw [ht]; simp]
    rw [parseDigitsAcc_append n 0 rest, parseDigitsAcc_stop h]
    simp

/-- Parsing the serialized sign-and-digits part back yields the integer. -/
theorem parseSignedInt_intChars (i : Int) (rest : Str) (h : numDelim rest = true) :
    parseSignedInt (intChars i ++ rest) = some (i, rest) := by
  by_cases hneg : i < 0
  · rw [show intChars i = '-' :: natDigits i.natAbs by simp [intChars, hneg],
      List.cons_append,
      show parseSignedInt ('-' :: (natDigits i.natAbs ++ rest))
        = (parseNat0 (natDigits i.natAbs ++ rest)).map
            (fun p => (-(p.1 : Int), p.2)) from by simp [parseSignedInt],
      parseNat0_natDigits _ _ h]
    simp only [Option.map_some', Option.some.injEq, Prod.mk.injEq, and_true]
    omega
  · rw [show intChars i = natDigits i.natAbs by simp [intChars, hneg]]
    obtain ⟨d, t, hd, -, ht⟩ := natDigits_head i.natAbs
    have hnd : Char.ofNat (48 + d) ≠ '-' := (digitChar_facts d hd).2.2.1
    rw [ht, List.cons_append,
      show parseSignedInt (Char.ofNat (48 + d) :: (t ++ rest))
        = (parseNat0 (Char.ofNat (48 + d) :: (t ++ rest))).map
            (fun p => ((p.1 : Int), p.2)) from by simp [parseSignedInt, hnd],
      show Char.ofNat (48 + d) :: (t ++ rest) = natDigits i.natAbs ++ rest
        from by rw [ht]; simp,
      parseNat0_natDigits _ _ h]
    simp only [Option.map_some', Option.some.injEq, Prod.mk.injEq, and_true]
    omega

/-- Parsing the serialized integer back yields it. -/
theorem parseNum_intChars (i : Int) (rest : Str) (h : numDelim rest = true) :
    parseNum (intChars i ++ rest) = some (i, rest) := by
  unfold parseNum
  rw [parseSignedInt_intChars i rest h]
  cases rest with
  | nil => rfl
  | cons c r =>
    simp only [numDelim, Bool.not_eq_eq_eq_not, Bool.not_true,
      Bool.or_eq_false_iff, decide_eq_false_iff_not] at h
    simp [Option.bind, h.1.1.2, h.1.2, h.2]

/-! ## Round-trip groundwork: strings -/

/-- Hex digits round-trip. -/
theorem hexVal_hexDigit : ∀ m : Nat, m < 16 → hexVal (hexDigit m) = some m := by
  decide

/-- Scanning the escaped body of a string recovers it, leaving the input
after the closing quote. -/
theorem scanStr_ser : ∀ (s rest : Str),
    scanStr (s.flatMap escChar ++ '"' :: rest) = some (s, rest) := by
  intro s
  induction s with
  | nil => intro rest; rw [scanStr.eq_def]; simp
  | cons c s' ih =>
    intro rest
    rw [show (c :: s').flatMap escChar = escChar c ++ s'.flatMap escChar
      from by simp, List.append_assoc]
    by_cases h1 : c = '"'
    · subst h1
      rw [show escChar '"' = ['\\', '"'] from rfl]
      rw [List.cons_append, List.cons_append, List.nil_append, scanStr.eq_def]
      simp [escOf, ih]
    · by_cases h2 : c = '\\'
      · subst h2
        rw [show escChar '\\' = ['\\', '\\'] from rfl]
        rw [List.cons_append, List.cons_append, List.nil_append, scanStr.eq_def]
        simp [escOf, ih]
      · by_cases h3 : c = '\n'
        · subst h3
          rw [show escChar '\n' = ['\\', 'n'] from rfl]
          rw [List.cons_append, List.cons_append, List.nil_append, scanStr.eq_def]
          simp [escOf, ih]
        · by_cases h4 : c = '\t'
          · subst h4
            rw [show escChar '\t' = ['\\', 't'] from rfl]
            rw [List.cons_append, List.cons_append, List.nil_append, scanStr.eq_def]
            simp [escOf, ih]
          · by_cases h5 : c = '\r'
            · subst h5
              rw [show escChar '\r' = ['\\', 'r'] from rfl]
              rw [List.cons_append, List.cons_append, List.nil_append, scanStr.eq_def]
              simp [escOf, ih]
            · by_cases h6 : c = Char.ofNat 8
              · subst h6
                rw [show escChar (Char.ofNat 8) = ['\\', 'b'] from rfl]
                rw [List.cons_append, List.cons_append, List.nil_append, scanStr.eq_def]
                simp [escOf, ih]
              · by_cases h7 : c = Char.ofNat 12
                · subst h7
                  rw [show escChar (Char.ofNat 12) = ['\\', 'f'] from rfl]
                  rw [List.cons_append, List.cons_append, List.nil_append, scanStr.eq_def]
                  simp [escOf, ih]
                · by_cases h8 : c.toNat < 32
                  · rw [show escChar c = ['\\', 'u', '0', '0',
                      hexDigit (c.toNat / 16), hexDigit (c.toNat % 16)]
                      from by simp [escChar, h1, h2, h3, h4, h5, h6, h7, h8]]
                    have hx1 := hexVal_hexDigit (c.toNat / 16) (by omega)
                    have hx2 := hexVal_hexDigit (c.toNat % 16) (by omega)
                    have harith : ((0 * 16 + 0) * 16 + c.toNat / 16) * 16
                        + c.toNat % 16 = c.toNat := by omega
                    have hsur : ¬(0xD800 ≤ ((0 * 16 + 0) * 16 + c.toNat / 16) * 16
                        + c.toNat % 16 ∧ ((0 * 16 + 0) * 16 + c.toNat / 16) * 16
                        + c.toNat % 16 < 0xE000) := by omega
                    rw [List.cons_append, List.cons_append, List.cons_append,
                      List.cons_append, List.cons_append, List.cons_append,
                      List.nil_append, scanStr.eq_def]
                    simp [show hexVal '0' = some 0 from rfl, hx1, hx2, hsur,
                      harith, Char.ofNat_toNat, ih]
                    have hdm : c.toNat / 16 * 16 + c.toNat % 16 = c.toNat := by
                      omega
                    constructor
                    · intro hcon
                      omega
                    · rw [hdm, Char.ofNat_toNat]
                  · rw [show escChar c = [c]
                      from by simp [escChar, h1, h2, h3, h4, h5, h6, h7, h8]]
                    rw [List.cons_append, List.nil_append, scanStr.eq_def]
                    simp [h1, h2, h8, ih]

/-! ## Round-trip groundwork: whitespace, heads, dict insertion -/

/-- Skipping starts past any all-whitespace block. -/
theorem skipWs_append : ∀ (ws t : Str), ws.all jsonWs = true →
    skipWs (ws ++ t) = skipWs t := by
  intro ws
  induction ws with
  | nil => intro t _; rfl
  | cons c r ih =>
    intro t h
    simp only [List.all_cons, Bool.and_eq_true] at h
    simpa [skipWs, h.1] using ih t h.2

/-- Skipping stops at a non-whitespace head. -/
theorem skipWs_cons_not {c : Char} (h : jsonWs c = false) (r : Str) :
    skipWs (c :: r) = c :: r := by simp [skipWs, h]

/-- The indentation block is JSON whitespace. -/
theorem sp_all_ws (n : Nat) : (sp n).all jsonWs = true := by
  simp only [sp, List.all_eq_true]
  intro x hx
  rw [List.eq_of_mem_replicate hx]
  rfl

/-- The item-leading block is JSON whitespace. -/
theorem lead_all_ws (ind : Option Nat) (lvl : Nat) :
    (lead ind lvl).all jsonWs = true := by
  cases ind with
  | none => rfl
  | some k => simp [lead, sp_all_ws]; decide

/-- The close-leading block is JSON whitespace. -/
theorem closeLead_all_ws (ind : Option Nat) (lvl : Nat) :
    (closeLead ind lvl).all jsonWs = true := by
  cases ind with
  | none => rfl
  | some k => simp [closeLead, sp_all_ws]; decide

/-- `parseVal` ignores leading whitespace. -/
theorem parseVal_ws (f : Nat) (ws t : Str) (h : ws.all jsonWs = true) :
    parseVal f (ws ++ t) = parseVal f t := by
  cases f with
  | zero => rfl
  | succ f => rw [parseVal, parseVal, skipWs_append ws t h]

/-- Every serialized value starts with a character that is not
whitespace and not a closing token. -/
theorem serVal_shape (ind : Option Nat) (lvl : Nat) (v : JsonVal) :
    ∃ c t, serVal ind lvl v = c :: t ∧ jsonWs c = false ∧ c ≠ ']' ∧
      c ≠ rbrace ∧ c ≠ ',' := by
  cases v with
  | null => exact ⟨'n', _, rfl, rfl, by decide, by decide, by decide⟩
  | bool b =>
    cases b
    · exact ⟨'f', _, rfl, rfl, by decide, by decide, by decide⟩
    · exact ⟨'t', _, rfl, rfl, by decide, by decide, by decide⟩
  | num i =>
    by_cases hneg : i < 0
    · exact ⟨'-', natDigits i.natAbs,
        by simp [serVal, intChars, hneg], by decide, by decide, by decide,
        by decide⟩
    · obtain ⟨d, t, hd, -, ht⟩ := natDigits_head i.natAbs
      obtain ⟨-, -, -, -, -, -, -, -, -, hws, hbr, hrb, hcm⟩ := digitChar_facts d hd
      exact ⟨Char.ofNat (48 + d), t,
        by simp [serVal, intChars, hneg, ht], hws, hbr, hrb, hcm⟩
  | str s =>
    exact ⟨'"', s.flatMap escChar ++ ['"'], rfl, by decide, by decide,
      by decide, by decide⟩
  | arr xs =>
    cases xs with
    | nil => exact ⟨'[', _, rfl, by decide, by decide, by decide, by decide⟩
    | cons x xs =>
      exact ⟨'[', _, rfl, by decide, by decide, by decide, by decide⟩
  | obj ps =>
    cases ps with
    | nil => exact ⟨lbrace, _, rfl, by decide, by decide, by decide, by decide⟩
    | cons p ps =>
      exact ⟨lbrace, _, rfl, by decide, by decide, by decide, by decide⟩

/-- Key-membership distributes over append. -/
theorem hasKey_append (k : Str) : ∀ (l1 l2 : List (Str × JsonVal)),
    hasKey k (l1 ++ l2) = (hasKey k l1 || hasKey k l2) := by
  intro l1
  induction l1 with
  | nil => intro l2; simp [hasKey]
  | cons p r ih =>
    intro l2
    cases p with
    | mk k' v' => simp [hasKey, ih, Bool.or_assoc]

/-- Inserting a fresh key appends the pair. -/
theorem insertKV_fresh (k : Str) (v : JsonVal) :
    ∀ (l : List (Str × JsonVal)), hasKey k l = false →
      insertKV l k v = l ++ [(k, v)] := by
  intro l
  induction l with
  | nil => intro _; rfl
  | cons p r ih =>
    intro h
    cases p with
    | mk k' v' =>
      simp only [hasKey, Bool.or_eq_false_iff, decide_eq_false_iff_not] at h
      simp [insertKV, h.1, ih h.2]

/-- Without the key in the list, every member's key differs from it. -/
theorem hasKey_false_forall {k : Str} : ∀ {l : List (Str × JsonVal)},
    hasKey k l = false → ∀ q ∈ l, q.1 ≠ k := by
  intro l
  induction l with
  | nil => intro _ q hq; simp at hq
  | cons p r ih =>
    intro h q hq
    cases p with
    | mk k' v' =>
      simp only [hasKey, Bool.or_eq_false_iff, decide_eq_false_iff_not] at h
      rcases List.mem_cons.mp hq with rfl | hq'
      · exact h.1
      · exact ih h.2 q hq'

/-- A serialized array tail never extends a number token. -/
theorem numDelim_arrTail (ind : Option Nat) (lvl : Nat) (xs : List JsonVal)
    (rest : Str) :
    numDelim (serArrTail ind lvl xs ++ (closeLead ind lvl ++ ']' :: rest))
      = true := by
  cases xs with
  | nil =>
    cases ind with
    | none => rfl
    | some k => rfl
  | cons x xs => rfl

/-- A serialized object tail never extends a number token. -/
theorem numDelim_objTail (ind : Option Nat) (lvl : Nat)
    (ps : List (Str × JsonVal)) (rest : Str) :
    numDelim (serObjTail ind lvl ps ++ (closeLead ind lvl ++ rbrace :: rest))
      = true := by
  cases ps with
  | nil =>
    cases ind with
    | none => rfl
    | some k => rfl
  | cons p ps => rfl

/-- Brace characters are distinct from the parser's dispatch literals. -/
theorem lb_n : (lbrace = 'n') = False := by decide

/-- Brace vs `t`. -/
theorem lb_t : (lbrace = 't') = False := by decide

/-- Brace vs `f`. -/
theorem lb_f : (lbrace = 'f') = False := by decide

/-- Brace vs quote. -/
theorem lb_q : (lbrace = '"') = False := by decide

/-- Brace vs bracket. -/
theorem lb_b : (lbrace = '[') = False := by decide

/-- Dash vs brace. -/
theorem dash_lb : ('-' = lbrace) = False := by decide

/-- Quote vs closing brace. -/
theorem q_rb : ('"' = rbrace) = False := by decide

/-- Bracket char is not the closing brace. -/
theorem br_rb : ('[' = lbrace) = False := by decide

/-- Closing brace is not a comma. -/
theorem rb_comma : (rbrace = ',') = False := by decide

mutual

/-- Parsing a serialized value recovers it, for any serialization mode
and indentation level. -/
theorem rt_val : ∀ (v : JsonVal) (ind : Option Nat) (lvl : Nat) (f : Nat)
    (rest : Str), (serVal ind lvl v).length < f → uniqV v = true →
    numDelim rest = true →
    parseVal f (serVal ind lvl v ++ rest) = some (v, rest)
  | .null, ind, lvl, f, rest, hf, _, _ => by
    cases f with
    | zero => exact absurd hf (Nat.not_lt_zero _)
    | succ f =>
      rw [parseVal]
      simp [serVal, skipWs, jsonWs, expectChars]
  | .bool true, ind, lvl, f, rest, hf, _, _ => by
    cases f with
    | zero => exact absurd hf (Nat.not_lt_zero _)
    | succ f =>
      rw [parseVal]
      simp [serVal, skipWs, jsonWs, expectChars]
  | .bool false, ind, lvl, f, rest, hf, _, _ => by
    cases f with
    | zero => exact absurd hf (Nat.not_lt_zero _)
    | succ f =>
      rw [parseVal]
      simp [serVal, skipWs, jsonWs, expectChars]
  | .num i, ind, lvl, f, rest, hf, _, hr => by
    cases f with
    | zero => exact absurd hf (Nat.not_lt_zero _)
    | succ f =>
      rw [parseVal]
      by_cases hneg : i < 0
      · rw [show serVal ind lvl (.num i) ++ rest
          = '-' :: (natDigits i.natAbs ++ rest) from by
            simp [serVal, intChars, hneg]]
        rw [skipWs_cons_not (by decide)]
        have hpn : parseNum ('-' :: (natDigits i.natAbs ++ rest))
            = some (i, rest) := by
          rw [show '-' :: (natDigits i.natAbs ++ rest) = intChars i ++ rest
            from by simp [intChars, hneg]]
          exact parseNum_intChars i rest hr
        simp [hpn, dash_lb]
      · obtain ⟨d, t, hd, -, ht⟩ := natDigits_head i.natAbs
        obtain ⟨-, -, -, hn, htt, hff, hq, hbr2, hlb, hwsd, -, -, -⟩ :=
          digitChar_facts d hd
        rw [show serVal ind lvl (.num i) ++ rest
          = Char.ofNat (48 + d) :: (t ++ rest) from by
            simp [serVal, intChars, hneg, ht]]
        rw [skipWs_cons_not hwsd]
        have hpn : parseNum (Char.ofNat (48 + d) :: (t ++ rest))
            = some (i, rest) := by
          rw [show Char.ofNat (48 + d) :: (t ++ rest) = intChars i ++ rest
            from by simp [intChars, hneg, ht]]
          exact parseNum_intChars i rest hr
        simp [hn, htt, hff, hq, hbr2, hlb, hpn]
  | .str s, ind, lvl, f, rest, hf, _, _ => by
    cases f with
    | zero => exact absurd hf (Nat.not_lt_zero _)
    | succ f =>
      rw [parseVal]
      rw [show serVal ind lvl (.str s) ++ rest
        = '"' :: (s.flatMap escChar ++ '"' :: rest) from by
          simp [serVal, serStrL]]
      rw [skipWs_cons_not (by decide)]
      simp [scanStr_ser]
  | .arr [], ind, lvl, f, rest, hf, _, _ => by
    cases f with
    | zero => exact absurd hf (Nat.not_lt_zero _)
    | succ f =>
      rw [parseVal]
      rw [show serVal ind lvl (.arr []) ++ rest = '[' :: (']' :: rest) from rfl]
      rw [skipWs_cons_not (by decide)]
      simp [skipWs_cons_not (show jsonWs ']' = false from by decide)]
  | .arr (x :: xs), ind, lvl, f, rest, hf, hu, _ => by
    cases f with
    | zero => exact absurd hf (Nat.not_lt_zero _)
    | succ f =>
      have hu2 : uniqV x = true ∧ uniqItems xs = true := by
        simpa [uniqV, uniqItems] using hu
      rw [parseVal]
      have hser : serVal ind lvl (.arr (x :: xs)) ++ rest
          = '[' :: (lead ind lvl ++ (serVal ind (nextLvl ind lvl) x
              ++ (serArrTail ind lvl xs
                ++ (closeLead ind lvl ++ ']' :: rest)))) := by
        simp [serVal, List.append_assoc]
      rw [hser, skipWs_cons_not (by decide)]
      obtain ⟨c0, t0, hx0, hxws, hxbr, -, -⟩ :=
        serVal_shape ind (nextLvl ind lvl) x
      have hskip : skipWs (lead ind lvl ++ (serVal ind (nextLvl ind lvl) x
          ++ (serArrTail ind lvl xs ++ (closeLead ind lvl ++ ']' :: rest))))
          = c0 :: (t0 ++ (serArrTail ind lvl xs
              ++ (closeLead ind lvl ++ ']' :: rest))) := by
        rw [skipWs_append _ _ (lead_all_ws ind lvl), hx0, List.cons_append,
          skipWs_cons_not hxws]
      have hlen : (serVal ind lvl (.arr (x :: xs))).length
          = 1 + (lead ind lvl).length + (serVal ind (nextLvl ind lvl) x).length
            + (serArrTail ind lvl xs).length + (closeLead ind lvl).length
            + 1 := by
        simp [serVal]
        ring
      have harr := rt_arrItems x xs ind lvl f [] rest (by omega) hu2.1 hu2.2
      simp [hskip, hxbr, harr]
  | .obj [], ind, lvl, f, rest, hf, _, _ => by
    cases f with
    | zero => exact absurd hf (Nat.not_lt_zero _)
    | succ f =>
      rw [parseVal]
      rw [show serVal ind lvl (.obj []) ++ rest
        = lbrace :: (rbrace :: rest) from rfl]
      rw [skipWs_cons_not (by decide)]
      simp [skipWs_cons_not (show jsonWs rbrace = false from by decide),
        lb_n, lb_t, lb_f, lb_q, lb_b]
  | .obj (p :: ps), ind, lvl, f, rest, hf, hu, _ => by
    cases f with
    | zero => exact absurd hf (Nat.not_lt_zero _)
    | succ f =>
      have hu2 : uniqPairs (p :: ps) = true := hu
      rw [parseVal]
      have hser : serVal ind lvl (.obj (p :: ps)) ++ rest
          = lbrace :: (lead ind lvl ++ (serKV ind lvl p
              ++ (serObjTail ind lvl ps
                ++ (closeLead ind lvl ++ rbrace :: rest)))) := by
        simp [serVal, List.append_assoc]
      rw [hser, skipWs_cons_not (by decide)]
      have hkv : serKV ind lvl p ++ (serObjTail ind lvl ps
          ++ (closeLead ind lvl ++ rbrace :: rest))
          = '"' :: (p.1.flatMap escChar ++ ('"' :: (kvSep ind
              ++ (serVal ind (nextLvl ind lvl) p.2
                ++ (serObjTail ind lvl ps
                  ++ (closeLead ind lvl ++ rbrace :: rest)))))) := by
        simp [serKV, serStrL, List.append_assoc]
      have hskip : skipWs (lead ind lvl ++ (serKV ind lvl p
          ++ (serObjTail ind lvl ps ++ (closeLead ind lvl ++ rbrace :: rest))))
          = '"' :: (p.1.flatMap escChar ++ ('"' :: (kvSep ind
              ++ (serVal ind (nextLvl ind lvl) p.2
                ++ (serObjTail ind lvl ps
                  ++ (closeLead ind lvl ++ rbrace :: rest)))))) := by
        rw [skipWs_append _ _ (lead_all_ws ind lvl), hkv,
          skipWs_cons_not (by decide)]
      have hlen : (serVal ind lvl (.obj (p :: ps))).length
          = 1 + (lead ind lvl).length + (serKV ind lvl p).length
            + (serObjTail ind lvl ps).length + (closeLead ind lvl).length
            + 1 := by
        simp [serVal]
        ring
      have hobj := rt_objItems p ps ind lvl f [] [] rest rfl (by omega) hu2
        (fun q _ => rfl)
      rw [List.nil_append] at hobj
      simp only [lb_n, lb_t, lb_f, lb_q, lb_b, if_false, if_true,
        eq_self_iff_true, hskip, q_rb]
      rw [← hkv]
      exact hobj
termination_by v ind lvl f rest hf hu hr => sizeOf v

/-- Parsing serialized array items after the opening bracket collects
them onto the accumulator. -/
theorem rt_arrItems : ∀ (x : JsonVal) (xs : List JsonVal) (ind : Option Nat)
    (lvl : Nat) (f : Nat) (acc : List JsonVal) (rest : Str),
    (lead ind lvl).length + (serVal ind (nextLvl ind lvl) x).length
      + (serArrTail ind lvl xs).length + 1 < f →
    uniqV x = true → uniqItems xs = true →
    parseArrItems f acc (lead ind lvl ++ (serVal ind (nextLvl ind lvl) x
        ++ (serArrTail ind lvl xs ++ (closeLead ind lvl ++ ']' :: rest))))
      = some (.arr (acc ++ x :: xs), rest)
  | x, [], ind, lvl, f, acc, rest, hf, hux, _ => by
    cases f with
    | zero => exact absurd hf (Nat.not_lt_zero _)
    | succ f =>
      rw [parseArrItems]
      have hpv : parseVal f (lead ind lvl ++ (serVal ind (nextLvl ind lvl) x
          ++ (serArrTail ind lvl [] ++ (closeLead ind lvl ++ ']' :: rest))))
          = some (x, serArrTail ind lvl []
              ++ (closeLead ind lvl ++ ']' :: rest)) := by
        rw [parseVal_ws f _ _ (lead_all_ws ind lvl)]
        exact rt_val x ind (nextLvl ind lvl) f _ (by omega) hux
          (numDelim_arrTail ind lvl [] rest)
      rw [hpv]
      have hsk : skipWs (serArrTail ind lvl [] ++ (closeLead ind lvl
          ++ ']' :: rest)) = ']' :: rest := by
        simp only [serArrTail, List.nil_append]
        rw [skipWs_append _ _ (closeLead_all_ws ind lvl),
          skipWs_cons_not (by decide)]
      simp [hsk]
  | x, z :: zs, ind, lvl, f, acc, rest, hf, hux, huxs => by
    cases f with
    | zero => exact absurd hf (Nat.not_lt_zero _)
    | succ f =>
      rw [parseArrItems]
      have hpv : parseVal f (lead ind lvl ++ (serVal ind (nextLvl ind lvl) x
          ++ (serArrTail ind lvl (z :: zs)
            ++ (closeLead ind lvl ++ ']' :: rest))))
          = some (x, serArrTail ind lvl (z :: zs)
              ++ (closeLead ind lvl ++ ']' :: rest)) := by
        rw [parseVal_ws f _ _ (lead_all_ws ind lvl)]
        exact rt_val x ind (nextLvl ind lvl) f _ (by omega) hux
          (numDelim_arrTail ind lvl (z :: zs) rest)
      rw [hpv]
      have hu3 : uniqV z = true ∧ uniqItems zs = true := by
        simpa [uniqItems] using huxs
      have hsk : skipWs (serArrTail ind lvl (z :: zs) ++ (closeLead ind lvl
          ++ ']' :: rest)) = ',' :: (lead ind lvl
            ++ (serVal ind (nextLvl ind lvl) z ++ (serArrTail ind lvl zs
              ++ (closeLead ind lvl ++ ']' :: rest)))) := by
        rw [show serArrTail ind lvl (z :: zs) = ',' :: (lead ind lvl
          ++ (serVal ind (nextLvl ind lvl) z ++ serArrTail ind lvl zs))
          from by simp [serArrTail, List.append_assoc]]
        rw [List.cons_append, skipWs_cons_not (by decide)]
        simp [List.append_assoc]
      have hlen : (serArrTail ind lvl (z :: zs)).length
          = 1 + (lead ind lvl).length
            + (serVal ind (nextLvl ind lvl) z).length
            + (serArrTail ind lvl zs).length := by
        simp [serArrTail]
        ring
      have hrec := rt_arrItems z zs ind lvl f (acc ++ [x]) rest (by omega)
        hu3.1 hu3.2
      simp only [hsk]
      simp [hrec]
termination_by x xs ind lvl f acc rest hf hux huxs => sizeOf x + sizeOf xs
decreasing_by
  all_goals simp_wf
  all_goals first
    | omega
    | (simp <;> omega)
    | simp

/-- Parsing serialized object members after the opening brace collects
them via dict insertion; fresh keys make that a plain append. -/
theorem rt_objItems : ∀ (p : Str × JsonVal) (ps : List (Str × JsonVal))
    (ind : Option Nat) (lvl : Nat) (f : Nat)
    (acc : List (Str × JsonVal)) (ws rest : Str),
    ws.all jsonWs = true →
    (serKV ind lvl p).length + (serObjTail ind lvl ps).length + 1 < f →
    uniqPairs (p :: ps) = true →
    (∀ q ∈ p :: ps, hasKey q.1 acc = false) →
    parseObjItems f acc (ws ++ (serKV ind lvl p ++ (serObjTail ind lvl ps
        ++ (closeLead ind lvl ++ rbrace :: rest))))
      = some (.obj (acc ++ p :: ps), rest)
  | p, [], ind, lvl, f, acc, ws, rest, hws, hf, hu, hfresh => by
    cases f with
    | zero => exact absurd hf (Nat.not_lt_zero _)
    | succ f =>
      have hu3 : uniqV p.2 = true := by
        obtain ⟨k, v⟩ := p
        simp only [uniqPairs, Bool.and_eq_true] at hu
        exact hu.1.2
      rw [parseObjItems]
      have hkv : serKV ind lvl p ++ (serObjTail ind lvl []
          ++ (closeLead ind lvl ++ rbrace :: rest))
          = '"' :: (p.1.flatMap escChar ++ ('"' :: (kvSep ind
              ++ (serVal ind (nextLvl ind lvl) p.2
                ++ (serObjTail ind lvl []
                  ++ (closeLead ind lvl ++ rbrace :: rest)))))) := by
        simp [serKV, serStrL, List.append_assoc]
      have hskip : skipWs (ws ++ (serKV ind lvl p ++ (serObjTail ind lvl []
          ++ (closeLead ind lvl ++ rbrace :: rest))))
          = '"' :: (p.1.flatMap escChar ++ ('"' :: (kvSep ind
              ++ (serVal ind (nextLvl ind lvl) p.2
                ++ (serObjTail ind lvl []
                  ++ (closeLead ind lvl ++ rbrace :: rest)))))) := by
        rw [skipWs_append _ _ hws, hkv, skipWs_cons_not (by decide)]
      rw [hskip]
      have hstr := scanStr_ser p.1 (kvSep ind
        ++ (serVal ind (nextLvl ind lvl) p.2 ++ (serObjTail ind lvl []
          ++ (closeLead ind lvl ++ rbrace :: rest))))
      have hcolon : skipWs (kvSep ind
          ++ (serVal ind (nextLvl ind lvl) p.2 ++ (serObjTail ind lvl []
            ++ (closeLead ind lvl ++ rbrace :: rest))))
          = ':' :: (kvPad ind
              ++ (serVal ind (nextLvl ind lvl) p.2 ++ (serObjTail ind lvl []
                ++ (closeLead ind lvl ++ rbrace :: rest)))) := by
        rw [show kvSep ind = ':' :: kvPad ind from by cases ind <;> rfl,
          List.cons_append, skipWs_cons_not (by decide)]
      have hpv : parseVal f (kvPad ind
          ++ (serVal ind (nextLvl ind lvl) p.2 ++ (serObjTail ind lvl []
            ++ (closeLead ind lvl ++ rbrace :: rest))))
          = some (p.2, serObjTail ind lvl []
              ++ (closeLead ind lvl ++ rbrace :: rest)) := by
        rw [parseVal_ws f _ _ (by cases ind <;> rfl)]
        exact rt_val p.2 ind (nextLvl ind lvl) f _
          (by
            have : (serKV ind lvl p).length = (serStrL p.1).length
              + (kvSep ind).length
              + (serVal ind (nextLvl ind lvl) p.2).length := by
              simp [serKV]
              omega
            omega)
          hu3 (numDelim_objTail ind lvl [] rest)
      simp only [hstr, hcolon, hpv]
      have hsk : skipWs (serObjTail ind lvl [] ++ (closeLead ind lvl
          ++ rbrace :: rest)) = rbrace :: rest := by
        simp only [serObjTail, List.nil_append]
        rw [skipWs_append _ _ (closeLead_all_ws ind lvl),
          skipWs_cons_not (by decide)]
      rw [insertKV_fresh p.1 p.2 acc (hfresh p (by simp))]
      simp [hsk, rb_comma]
  | p, q :: qs, ind, lvl, f, acc, ws, rest, hws, hf, hu, hfresh => by
    cases f with
    | zero => exact absurd hf (Nat.not_lt_zero _)
    | succ f =>
      have hu3 : hasKey p.1 (q :: qs) = false ∧ uniqV p.2 = true
          ∧ uniqPairs (q :: qs) = true := by
        obtain ⟨k, v⟩ := p
        simpa [uniqPairs, and_assoc] using hu
      rw [parseObjItems]
      have hkv : serKV ind lvl p ++ (serObjTail ind lvl (q :: qs)
          ++ (closeLead ind lvl ++ rbrace :: rest))
          = '"' :: (p.1.flatMap escChar ++ ('"' :: (kvSep ind
              ++ (serVal ind (nextLvl ind lvl) p.2
                ++ (serObjTail ind lvl (q :: qs)
                  ++ (closeLead ind lvl ++ rbrace :: rest)))))) := by
        simp [serKV, serStrL, List.append_assoc]
      have hskip : skipWs (ws ++ (serKV ind lvl p
          ++ (serObjTail ind lvl (q :: qs)
            ++ (closeLead ind lvl ++ rbrace :: rest))))
          = '"' :: (p.1.flatMap escChar ++ ('"' :: (kvSep ind
              ++ (serVal ind (nextLvl ind lvl) p.2
                ++ (serObjTail ind lvl (q :: qs)
                  ++ (closeLead ind lvl ++ rbrace :: rest)))))) := by
        rw [skipWs_append _ _ hws, hkv, skipWs_cons_not (by decide)]
      rw [hskip]
      have hstr := scanStr_ser p.1 (kvSep ind
        ++ (serVal ind (nextLvl ind lvl) p.2 ++ (serObjTail ind lvl (q :: qs)
          ++ (closeLead ind lvl ++ rbrace :: rest))))
      have hcolon : skipWs (kvSep ind
          ++ (serVal ind (nextLvl ind lvl) p.2 ++ (serObjTail ind lvl (q :: qs)
            ++ (closeLead ind lvl ++ rbrace :: rest))))
          = ':' :: (kvPad ind
              ++ (serVal ind (nextLvl ind lvl) p.2
                ++ (serObjTail ind lvl (q :: qs)
                  ++ (closeLead ind lvl ++ rbrace :: rest)))) := by
        rw [show kvSep ind = ':' :: kvPad ind from by cases ind <;> rfl,
          List.cons_append, skipWs_cons_not (by decide)]
      have hpv : parseVal f (kvPad ind
          ++ (serVal ind (nextLvl ind lvl) p.2 ++ (serObjTail ind lvl (q :: qs)
            ++ (closeLead ind lvl ++ rbrace :: rest))))
          = some (p.2, serObjTail ind lvl (q :: qs)
              ++ (closeLead ind lvl ++ rbrace :: rest)) := by
        rw [parseVal_ws f _ _ (by cases ind <;> rfl)]
        exact rt_val p.2 ind (nextLvl ind lvl) f _
          (by
            have : (serKV ind lvl p).length = (serStrL p.1).length
              + (kvSep ind).length
              + (serVal ind (nextLvl ind lvl) p.2).length := by
              simp [serKV]
              omega
            omega)
          hu3.2.1 (numDelim_objTail ind lvl (q :: qs) rest)
      simp only [hstr, hcolon, hpv]
      have hq3 : uniqPairs (q :: qs) = true := hu3.2.2
      have hsk : skipWs (serObjTail ind lvl (q :: qs) ++ (closeLead ind lvl
          ++ rbrace :: rest)) = ',' :: (lead ind lvl
            ++ (serKV ind lvl q ++ (serObjTail ind lvl qs
              ++ (closeLead ind lvl ++ rbrace :: rest)))) := by
        rw [show serObjTail ind lvl (q :: qs) = ',' :: (lead ind lvl
          ++ (serKV ind lvl q ++ serObjTail ind lvl qs))
          from by simp [serObjTail, List.append_assoc]]
        rw [List.cons_append, skipWs_cons_not (by decide)]
        simp [List.append_assoc]
      have hlen : (serObjTail ind lvl (q :: qs)).length
          = 1 + (lead ind lvl).length + (serKV ind lvl q).length
            + (serObjTail ind lvl qs).length := by
        simp [serObjTail]
        ring
      rw [insertKV_fresh p.1 p.2 acc (hfresh p (by simp))]
      have hfresh2 : ∀ r ∈ q :: qs, hasKey r.1 (acc ++ [(p.1, p.2)])
          = false := by
        intro r hr
        rw [hasKey_append]
        have h1 : hasKey r.1 acc = false := hfresh r (by simp [hr])
        have h2 : r.1 ≠ p.1 :=
          hasKey_false_forall hu3.1 r hr
        have h3 : (p.1 = r.1) = False := eq_false fun hcon => h2 hcon.symm
        rw [h1]
        simp [hasKey, h3]
      have hrec := rt_objItems q qs ind lvl f (acc ++ [(p.1, p.2)])
        (lead ind lvl) rest (lead_all_ws ind lvl) (by omega) hq3 hfresh2
      simp only [hsk]
      simp [hrec]
termination_by p ps ind lvl f acc ws rest hws hf hu hfresh => sizeOf p + sizeOf ps
decreasing_by
  all_goals simp_wf
  all_goals first
    | omega
    | (simp <;> omega)
    | (obtain ⟨k, v⟩ := p; simp <;> omega)
    | simp

end

/-- Decoding a dumped value (either format) recovers it, for every value
with Python-dict-representable objects. -/
theorem jsonLoads_dumpJson (compact : Bool) (v : JsonVal)
    (hu : uniqV v = true) : jsonLoads (dumpJson compact v) = some v := by
  cases compact with
  | true =>
    rw [show dumpJson true v = serVal none 0 v from rfl, jsonLoads]
    have h := rt_val v none 0 (2 * (serVal none 0 v).length + 2) []
      (by omega) hu rfl
    rw [List.append_nil] at h
    simp [h, skipWs]
  | false =>
    rw [show dumpJson false v = serVal (some 2) 0 v from rfl, jsonLoads]
    have h := rt_val v (some 2) 0 (2 * (serVal (some 2) 0 v).length + 2) []
      (by omega) hu rfl
    rw [List.append_nil] at h
    simp [h, skipWs]

/-! ## Claim C5: combined-mode round-trip -/

/-- Claim C5: serializing the Combined Output in combined mode and
re-parsing yields the same structure, in both the compact and the pretty
format (for outputs whose objects have the distinct keys every Python
dict has). -/
theorem claim_C5_roundtrip (data : List (Str × JsonVal))
    (hu : uniqV (.obj data) = true) :
    jsonLoads (saveCombined data true) = some (.obj data) ∧
    jsonLoads (saveCombined data false) = some (.obj data) :=
  ⟨jsonLoads_dumpJson true _ hu, jsonLoads_dumpJson false _ hu⟩

/-- Witness for C5 on a small combined output with nested values. -/
theorem claim_C5_roundtrip_witness :
    jsonLoads (saveCombined [("a".data, .num 1),
        ("b".data, .arr [.null, .bool true, .str "x".data])] true)
      = some (.obj [("a".data, .num 1),
          ("b".data, .arr [.null, .bool true, .str "x".data])]) ∧
    jsonLoads (saveCombined [("a".data, .num 1),
        ("b".data, .arr [.null, .bool true, .str "x".data])] false)
      = some (.obj [("a".data, .num 1),
          ("b".data, .arr [.null, .bool true, .str "x".data])]) :=
  claim_C5_roundtrip [("a".data, .num 1),
    ("b".data, .arr [.null, .bool true, .str "x".data])] (by rfl)

/-! ## Claim C6: separate-files mode -/

/-- Claim C6: separate-files mode targets the directory named by the
output path's parent and stem, writes exactly one metadata file and one
file per non-metadata key named after that key, and each written
content re-parses to that key's value. -/
theorem claim_C6_separate_files (meta : JsonVal)
    (extracted : List (Str × JsonVal)) (outPath : Str) (compact : Bool)
    (hmeta : uniqV meta = true)
    (hvals : ∀ p ∈ extracted, uniqV p.2 = true)
    (hk : ∀ p ∈ extracted, p.1 ≠ metaKey) :
    saveSeparateFiles ((metaKey, meta) :: extracted) outPath compact
      = some (pyParent outPath ++ '/' :: pyStem outPath,
          ("extraction_metadata.json".data, dumpJson compact meta)
            :: extracted.map
                (fun p => (p.1 ++ ".json".data, dumpJson compact p.2))) ∧
    jsonLoads (dumpJson compact meta) = some meta ∧
    (∀ p ∈ extracted, jsonLoads (dumpJson compact p.2) = some p.2) := by
  refine ⟨?_, jsonLoads_dumpJson compact meta hmeta,
    fun p hp => jsonLoads_dumpJson compact p.2 (hvals p hp)⟩
  unfold saveSeparateFiles
  rw [show lookupKV ((metaKey, meta) :: extracted) metaKey = some meta
    from by simp [lookupKV]]
  have hfil : ((metaKey, meta) :: extracted).filter
      (fun p => p.1 ≠ metaKey) = extracted := by
    rw [List.filter_cons]
    simp only [decide_not, show (decide ((metaKey, meta).1 = metaKey))
      = true from by simp, Bool.not_true, Bool.false_eq_true, if_false]
    exact List.filter_eq_self.mpr fun a ha => by
      simpa using hk a ha
  rw [hfil]

/-- Witness for C6 on a one-key extraction. -/
theorem claim_C6_separate_files_witness :
    saveSeparateFiles [(metaKey, .obj [("source_file".data, .str "t.html".data)]),
        ("header".data, .num 7)] "out/data.json".data true
      = some ("out/data".data,
          [("extraction_metadata.json".data,
              dumpJson true (.obj [("source_file".data, .str "t.html".data)])),
            ("header.json".data, dumpJson true (.num 7))]) := by
  have h := claim_C6_separate_files
    (.obj [("source_file".data, .str "t.html".data)])
    [("header".data, .num 7)] "out/data.json".data true rfl
    (by intro p hp
        simp only [List.mem_singleton] at hp
        subst hp
        rfl)
    (by intro p hp
        simp only [List.mem_singleton] at hp
        subst hp
        decide)
  rw [h.1]
  rfl

/-- Claim C3: a captured nonempty span that fails decoding is stored
untouched under the `_raw`-suffixed key; the failure is not an exception
(the model is total) and the rest of the extraction is the unchanged
per-marker `filterMap`. -/
theorem claim_C3_raw_fallback (doc id : Str) (hid : id ∈ JSON_SCRIPT_IDS)
    (c : Str) (hs : spanOf doc id = some c) (hne : c ≠ [])
    (hj : jsonLoads c = none) :
    contrib doc id = some (normKey id ++ "_raw".data, .str c) ∧
    (normKey id ++ "_raw".data, .str c) ∈ extractJsonFromHtml doc ∧
    extractJsonFromHtml doc = JSON_SCRIPT_IDS.filterMap (contrib doc) := by
  have hc : contrib doc id = some (normKey id ++ "_raw".data, .str c) := by
    unfold contrib
    rw [hs]
    simp [hne, hj]
  exact ⟨hc, by
    rw [extract_eq_filterMap]
    exact List.mem_filterMap.mpr ⟨id, hid, hc⟩, extract_eq_filterMap doc⟩

/-- Witness for C3: a span that is not valid JSON lands under
`header_raw`, verbatim. -/
theorem claim_C3_raw_fallback_witness :
    contrib "<script type=\"text/json\" id=\"headerJson\">oops</script>".data
        "headerJson".data
      = some ("header_raw".data, .str "oops".data) :=
  (claim_C3_raw_fallback
    "<script type=\"text/json\" id=\"headerJson\">oops</script>".data
    "headerJson".data (by simp [JSON_SCRIPT_IDS]) "oops".data rfl
    (by decide) rfl).1

end GTE
